import Mathlib

/-!
# Verification of the `dnfa` multi-pattern search engine

Shallow embedding of the core of the repository (`src/nfa.rs`, `src/dfa.rs`,
`src/automaton.rs`) and proofs about it.

Modelling conventions:
* A byte (`u8`) is `Fin 256`.
* `usize` values (state numbers, pattern numbers, offsets) are `ℕ`; the one
  place the code subtracts offsets (`Match.start = text_offset - len`) uses
  truncated `ℕ` subtraction, and the possibility of `usize` underflow there
  is discussed at the relevant theorem.
* `BTreeSet<T>` is its canonical form: a strictly sorted `List T`, with
  `insertSorted` as `insert`; iteration order (ascending) is list order, and
  `iter().next()` is `List.head?`. A `BTreeMap<Input, BTreeSet<ℕ>>`
  is `Fin 256 → Option (List ℕ)`: an absent key is `none`.
* `Vec<T>` / `Box<[T]>` are `List T`; indexing `v[i]` is `List.getD i default`
  (all verified executions stay in bounds). The `HashMap` of
  `powerset_construction`, keyed by the canonical sorted
  `Vec<ℕ>` of a `BTreeSet`, is an association list with exactly
  those keys.
* Fallible functions (`into_dfa`, `into_ddfa`) return `Except Unit`;
  a panicking accessor (`NFA::get_match`) returns `Option`.
* The raw `*const DDFAState` pointers of `dfa.rs` are modelled as the
  indices they resolve to inside the owning `DDFA`'s state array (pointer
  `states_start.offset(i)` ↔ index `i`).
* The `depth_map` field of `NFA` and the `add_depth_map`, `dot` and `Debug`
  rendering functions are not modelled: no verified operation reads them.
-/

set_option maxRecDepth 40000

namespace Dnfa

/-- A byte of input (`u8`), the alphabet of every automaton. -/
abbrev Input := Fin 256

/- State numbers and pattern numbers (`usize` values) are plain `ℕ`. -/

/-- `AUTO_START` of `nfa.rs`. -/
def AUTO_START : ℕ := 0

/-- `AUTO_STUCK` of `nfa.rs`. -/
def AUTO_STUCK : ℕ := 1

/-! ## `BTreeSet` as a strictly sorted list -/

/-- `BTreeSet::insert` on the canonical (strictly ascending) list form. -/
def insertSorted {α : Type} [LinearOrder α] (x : α) : List α → List α
  | [] => [x]
  | y :: ys =>
      if x < y then x :: y :: ys
      else if x = y then y :: ys
      else y :: insertSorted x ys

/-- `BTreeSet::extend`: insert every element of `l` into `acc`. -/
def extendSorted {α : Type} [LinearOrder α] (acc l : List α) : List α :=
  l.foldl (fun a x => insertSorted x a) acc

/-! ## NFA (`nfa.rs`) -/

/-- One state of the NFA (`NFAState` of `nfa.rs`): a sparse transition map
from byte to set of successor states, plus the pattern numbers ending here. -/
structure NFAState where
  transitions : Input → Option (List ℕ)
  pattern_ends : List ℕ

instance : Inhabited NFAState := ⟨⟨fun _ => none, []⟩⟩

/-- `NFAState::new`. -/
def NFAState.new : NFAState := ⟨fun _ => none, []⟩

/-- `NFAState::is_final`. -/
def NFAState.is_final (st : NFAState) : Bool := !st.pattern_ends.isEmpty

/-- `entry(byte).or_insert_with(BTreeSet::new).insert(target)` on the
transition map of one state. -/
def NFAState.insertTransition (st : NFAState) (b : Input) (t : ℕ) :
    NFAState :=
  { st with
    transitions := fun b' =>
      if b' = b then some (insertSorted t ((st.transitions b).getD []))
      else st.transitions b' }

/-- The NFA (`NFA` of `nfa.rs`), with its alphabet, state array and the
pattern dictionary (the unused `depth_map` is omitted). -/
structure NFA where
  alphabet : List Input
  states : List NFAState
  dict : List (List Input)

/-- `transitions.get(&byte).map_or(None, |x| x.iter().next())`: the first
(least) target of the transition set on `b`, if the entry is present. -/
def NFAState.firstTarget (st : NFAState) (b : Input) : Option ℕ :=
  (st.transitions b).bind List.head?

/-- The inner loop body of `NFA::from_dictionary`: consume one byte of the
pattern currently being inserted, following an existing transition when one
exists and otherwise allocating a fresh state. -/
def addByte (acc : List NFAState × ℕ) (b : Input) :
    List NFAState × ℕ :=
  let states := acc.1
  let cur := acc.2
  match (states.getD cur default).firstTarget b with
  | some s => (states, s)
  | none =>
      let nxt := states.length
      ((states ++ [NFAState.new]).set cur
        ((states.getD cur default).insertTransition b nxt), nxt)

/-- Append a pattern number to a state's `pattern_ends`. -/
def NFAState.pushEnd (st : NFAState) (i : ℕ) : NFAState :=
  { st with pattern_ends := st.pattern_ends ++ [i] }

/-- Insert one pattern with its pattern number into the trie
(the body of the outer loop of `NFA::from_dictionary`). -/
def addPattern (states : List NFAState) (pattern_no : ℕ)
    (bytes : List Input) : List NFAState :=
  let acc := bytes.foldl addByte (states, AUTO_START)
  acc.1.set acc.2 ((acc.1.getD acc.2 default).pushEnd pattern_no)

/-- `NFA::from_dictionary`. The alphabet is the set of bytes occurring in
the dictionary, collected in a `BTreeSet` (hence sorted, duplicate-free). -/
def NFA.from_dictionary (dict : List (List Input)) : NFA :=
  { alphabet := extendSorted [] dict.flatten,
    states := dict.enum.foldl (fun sts p => addPattern sts p.1 p.2)
      [NFAState.new, NFAState.new],
    dict := dict }

/-- `(0..=255)`: every byte in ascending order. -/
def allBytes : List Input := List.finRange 256

/-- Add a self-loop on state `fin` for every byte (used by both `ignore_*`
transformations). -/
def loopAll (st : NFAState) (fin : ℕ) : NFAState :=
  allBytes.foldl (fun s b => s.insertTransition b fin) st

/-- `NFA::ignore_prefixes`: full alphabet, and a self-loop on `AUTO_START`
over every byte. -/
def NFA.ignore_prefixes (nfa : NFA) : NFA :=
  { nfa with
    alphabet := allBytes,
    states := nfa.states.set AUTO_START
      (loopAll (nfa.states.getD AUTO_START default) AUTO_START) }

/-- `NFA::ignore_postfixes`: full alphabet, and a self-loop on every final
state over every byte. -/
def NFA.ignore_postfixes (nfa : NFA) : NFA :=
  { nfa with
    alphabet := allBytes,
    states := nfa.states.enum.map
      (fun p => if p.2.is_final then loopAll p.2 p.1 else p.2) }

/-- The targets of state `s` on byte `b` (empty when the entry is absent). -/
def targets (nfa : NFA) (s : ℕ) (b : Input) : List ℕ :=
  ((nfa.states.getD s default).transitions b).getD []

/-- One step of the active-state set (the body of the byte loop of
`NFA::apply`): extend the next set with each active state's transition set
on `b` (absent entries contribute nothing). -/
def nstep (nfa : NFA) (S : List ℕ) (b : Input) : List ℕ :=
  S.foldl (fun acc s => extendSorted acc (targets nfa s b)) []

/-- The active-state set after consuming `input` starting from `S`
(the loop of `NFA::apply`). -/
def nrun (nfa : NFA) (S : List ℕ) (input : List Input) :
    List ℕ :=
  input.foldl (nstep nfa) S

/-- `NFA::apply`: run from `{AUTO_START}`, then concatenate the
`pattern_ends` of the active states in ascending state order
(`BTreeSet` iteration order). -/
def NFA.apply (nfa : NFA) (input : List Input) : List ℕ :=
  (nrun nfa [AUTO_START] input).flatMap
    (fun s => (nfa.states.getD s default).pattern_ends)

/-! ## Powerset construction (`NFA::powerset_construction`)

The `states_map: HashMap<Vec<ℕ>, ℕ>` keys subsets by the
sorted vector a `BTreeSet` collects into — exactly the canonical lists used
here. The worklist is a stack: the list head is its top. The non-structural
`while let Some(..) = worklist.pop()` loop is embedded with explicit fuel;
`psFuel` is proven large enough (the loop always drains its worklist before
the fuel runs out). -/

/-- The mutable loop state of `powerset_construction`: the subset-to-index
map, the accumulated DNFA states and the worklist stack. -/
structure PSState where
  smap : List (List ℕ × ℕ)
  dstates : List NFAState
  wl : List (List ℕ × ℕ)

/-- `states_map.get(&key)` (keys are unique throughout the run). -/
def lookupS (m : List (List ℕ × ℕ))
    (k : List ℕ) : Option ℕ :=
  (m.find? (fun p => p.1 = k)).map (fun p => p.2)

/-- The `fin` set collected in the inner loop of `powerset_construction`:
for each active state, for each of its targets on `b`, extend with that
target's `pattern_ends`. -/
def finUnion (nfa : NFA) (S : List ℕ) (b : Input) :
    List ℕ :=
  S.foldl (fun acc s =>
    (targets nfa s b).foldl
      (fun a t => extendSorted a (nfa.states.getD t default).pattern_ends)
      acc) []

/-- Record the transition `cur --b--> n` in the DNFA being built
(`dnfa.states[cur_num].transitions.entry(input).or_insert(..).insert(nxt_num)`). -/
def PSState.install (σ : PSState) (cur : ℕ) (b : Input)
    (n : ℕ) : PSState :=
  { σ with
    dstates := σ.dstates.set cur
      ((σ.dstates.getD cur default).insertTransition b n) }

/-- The body of `for &input in &dnfa.alphabet` inside the worklist loop:
compute the successor subset, reuse or allocate its DNFA state, and install
the transition. -/
def psByte (nfa : NFA) (curS : List ℕ) (cur : ℕ)
    (σ : PSState) (b : Input) : PSState :=
  let nxt := nstep nfa curS b
  match lookupS σ.smap nxt with
  | some n => σ.install cur b n
  | none =>
      let n := σ.dstates.length
      let σ' : PSState :=
        { smap := (nxt, n) :: σ.smap,
          dstates := σ.dstates ++ [⟨fun _ => none, finUnion nfa curS b⟩],
          wl := if n ≠ AUTO_STUCK then (nxt, n) :: σ.wl else σ.wl }
      σ'.install cur b n

/-- The worklist loop of `powerset_construction`, with fuel. -/
def psLoop (nfa : NFA) : ℕ → PSState → PSState
  | 0, σ => σ
  | fuel + 1, σ =>
      match σ.wl with
      | [] => σ
      | (curS, cur) :: rest =>
          psLoop nfa fuel
            (nfa.alphabet.foldl (psByte nfa curS cur) { σ with wl := rest })

/-- Fuel that always outlasts the worklist loop (proven sufficient below). -/
def psFuel (nfa : NFA) : ℕ := 2 * 2 ^ nfa.states.length + 2

/-- The initial loop state: two DNFA states (start, with the NFA start's
pattern ends copied, and stuck), the three seed map entries, and a worklist
holding `({AUTO_START}, AUTO_START)`. -/
def psInit (nfa : NFA) : PSState :=
  { smap := [([AUTO_START], AUTO_START), ([AUTO_STUCK], AUTO_STUCK),
      ([], AUTO_STUCK)],
    dstates := [⟨fun _ => none,
      (nfa.states.getD AUTO_START default).pattern_ends⟩, NFAState.new],
    wl := [([AUTO_START], AUTO_START)] }

/-- `NFA::powerset_construction`. -/
def NFA.powerset_construction (nfa : NFA) : NFA :=
  { alphabet := nfa.alphabet,
    states := (psLoop nfa (psFuel nfa) (psInit nfa)).dstates,
    dict := nfa.dict }

/-! ## DFA (`dfa.rs`) -/

/-- `DFAState`: a dense 256-entry transition table and the pattern ends. -/
structure DFAState where
  transitions : Input → ℕ
  pattern_ends : List ℕ

instance : Inhabited DFAState := ⟨⟨fun _ => AUTO_STUCK, []⟩⟩

/-- `DFA`: dense states, the finals bit-vector, and the dictionary. -/
structure DFA where
  states : List DFAState
  finals : List Bool
  dict : List (List Input)

/-- Does the transition map hold an entry on `b` whose set is not a
singleton? (`sns.len() != 1` in `NFAState::into_dfa`.) -/
def NFAState.badEntry (st : NFAState) (b : Input) : Bool :=
  match st.transitions b with
  | none => false
  | some s => s.length ≠ 1

/-- `NFAState::into_dfa`: errs when some present transition set is not a
singleton; otherwise produces the dense row, absent bytes mapping to
`AUTO_STUCK`. -/
def NFAState.into_dfa (st : NFAState) : Except Unit DFAState :=
  if allBytes.any st.badEntry then .error ()
  else .ok ⟨fun b =>
    match st.transitions b with
    | none => AUTO_STUCK
    | some s => s.headD AUTO_STUCK, st.pattern_ends⟩

/-- The loop `for state in self.states { states.push(state.into_dfa()?); }`
of `NFA::into_dfa`: lower every state, stopping at the first failure. -/
def intoDfaStates : List NFAState → Except Unit (List DFAState)
  | [] => .ok []
  | st :: rest => do
      let d ← st.into_dfa
      let ds ← intoDfaStates rest
      return d :: ds

/-- `NFA::into_dfa`. -/
def NFA.into_dfa (nfa : NFA) : Except Unit DFA := do
  let states ← intoDfaStates nfa.states
  return ⟨states, nfa.states.map NFAState.is_final, nfa.dict⟩

/-- The loop of `DFA::apply`: follow the dense table, breaking out as soon
as the stuck state is entered. -/
def DFA.applyFrom (dfa : DFA) : ℕ → List Input → ℕ
  | cur, [] => cur
  | cur, b :: rest =>
      let c := (dfa.states.getD cur default).transitions b
      if c = AUTO_STUCK then c else dfa.applyFrom c rest

/-- `DFA::apply`. -/
def DFA.apply (dfa : DFA) (input : List Input) : List ℕ :=
  (dfa.states.getD (dfa.applyFrom AUTO_START input) default).pattern_ends

/-! ## DDFA (`dfa.rs`)

A `DDFAState`'s `Box<[*const DDFAState]>` holds pointers
`states_start.offset(i)`; each such pointer is modelled by the index `i` it
resolves to inside the owning automaton's state array. -/

/-- `DDFAState`: pre-resolved transitions, pattern ends, finality bit. -/
structure DDFAState where
  transitions : Input → ℕ
  pattern_ends : List ℕ
  is_final : Bool

instance : Inhabited DDFAState := ⟨⟨fun _ => AUTO_STUCK, [], false⟩⟩

/-- `DDFA`. -/
structure DDFA where
  states : List DDFAState
  dict : List (List Input)

/-- `DFA::into_ddfa`: errs when some stored transition index is out of range
(`offset >= states_len`); otherwise resolves every index and copies the
pattern ends and finality bit of each state. -/
def DFA.into_ddfa (dfa : DFA) : Except Unit DDFA :=
  if dfa.states.any
      (fun st => allBytes.any (fun b => dfa.states.length ≤ st.transitions b))
  then .error ()
  else .ok ⟨dfa.states.enum.map
    (fun p => ⟨p.2.transitions, p.2.pattern_ends, dfa.finals.getD p.1 false⟩),
    dfa.dict⟩

/-- The loop of `DDFA::apply` (pointer comparison with the stuck state is
index comparison with `AUTO_STUCK`). -/
def DDFA.applyFrom (ddfa : DDFA) : ℕ → List Input → ℕ
  | cur, [] => cur
  | cur, b :: rest =>
      let c := (ddfa.states.getD cur default).transitions b
      if c = AUTO_STUCK then c else ddfa.applyFrom c rest

/-- `DDFA::apply`. -/
def DDFA.apply (ddfa : DDFA) (input : List Input) : List ℕ :=
  (ddfa.states.getD (ddfa.applyFrom AUTO_START input) default).pattern_ends

/-! ## The automaton interface and match iterator (`automaton.rs`) -/

/-- `Match` of `automaton.rs`. The `end` field is renamed `stop`
(`end` is a reserved word). -/
structure Match where
  pattern_no : ℕ
  start : ℕ
  stop : ℕ
  deriving DecidableEq

/-- The `Automaton` trait, as a record of the operations `Matches` consumes.
`get_match` returns `none` on its panic path. -/
structure Auto (S : Type) where
  start : S
  next_state : S → Input → S
  has_match : S → ℕ → Bool
  get_match : S → ℕ → ℕ → Option Match

/-- The body of the `while offset < self.input.len()` loop of
`Matches::next`, iterating over the input bytes from `offset` on (`rest` is
`input[offset..]`): advance the automaton byte by byte until a match is
seen or the input runs out, returning the offset at which the loop stopped
and the traversal state. -/
def innerLoopGo {S : Type} (a : Auto S) : List Input → S → ℕ → ℕ × S
  | [], st, offset => (offset, st)
  | b :: rest, st, offset =>
      let st' := a.next_state st b
      if a.has_match st' 0 then (offset, st')
      else innerLoopGo a rest st' (offset + 1)

/-- The `while` loop of `Matches::next`, started at `offset`. -/
def innerLoop {S : Type} (a : Auto S) (input : List Input) (st : S)
    (offset : ℕ) : ℕ × S :=
  innerLoopGo a (input.drop offset) st offset

/-- `Matches::next`: one call of the iterator, from iterator state
`(offset, traversal state)`. A yielded match comes with the next iterator
state; note that the traversal state carried forward is the state reached,
and that `get_match` receives the un-incremented `offset`. -/
def matchesNext {S : Type} (a : Auto S) (input : List Input)
    (ms : ℕ × S) : Option (Match × (ℕ × S)) :=
  let r := innerLoop a input ms.2 ms.1
  if r.1 < input.length then
    (a.get_match r.2 0 r.1).map (fun m => (m, (r.1 + 1, r.2)))
  else none

theorem innerLoopGo_offset_le {S : Type} (a : Auto S) (rest : List Input)
    (st : S) (offset : ℕ) : offset ≤ (innerLoopGo a rest st offset).1 := by
  induction rest generalizing st offset with
  | nil => simp [innerLoopGo]
  | cons b rest ih =>
      rw [innerLoopGo]
      split
      · simp
      · exact le_trans (Nat.le_succ _) (ih _ _)

theorem innerLoop_offset_le {S : Type} (a : Auto S) (input : List Input)
    (st : S) (offset : ℕ) : offset ≤ (innerLoop a input st offset).1 :=
  innerLoopGo_offset_le a _ st offset

/-- The full sequence of matches the iterator yields from a given iterator
state (repeated `Matches::next` until `None`). -/
def matchesFrom {S : Type} (a : Auto S) (input : List Input)
    (ms : ℕ × S) : List Match :=
  match h : matchesNext a input ms with
  | none => []
  | some (m, ms') => m :: matchesFrom a input ms'
termination_by input.length + 1 - ms.1
decreasing_by
  simp only [matchesNext] at h
  split at h
  · rename_i hlt
    rcases Option.map_eq_some'.mp h with ⟨m', hm', he⟩
    cases he
    have := innerLoop_offset_le a input ms.2 ms.1
    simp only
    omega
  · exact absurd h (by simp)

/-- `Automaton::find(input)`: matches from offset `0` in the automaton's
start state. -/
def findMatches {S : Type} (a : Auto S) (input : List Input) : List Match :=
  matchesFrom a input (0, a.start)

/-- The `Automaton` impl of `NFA`: traversal states are sets of state
numbers; `has_match` scans the set for a state with a `patt_no_offset`-th
pattern end, and `get_match` builds the `Match` from the first such state
(ascending `BTreeSet` order), with `none` standing for the
`panic!("There is no match of this pattern!")` branch. -/
def NFA.auto (nfa : NFA) : Auto (List ℕ) :=
  { start := [AUTO_START],
    next_state := fun S b => nstep nfa S b,
    has_match := fun S k =>
      S.any (fun s => k < (nfa.states.getD s default).pattern_ends.length),
    get_match := fun S k off =>
      S.findSome? (fun s =>
        ((nfa.states.getD s default).pattern_ends.get? k).map (fun pn =>
          ⟨pn, off - (nfa.dict.getD pn default).length, off⟩)) }

/-- The `Automaton` impl of `DFA`: traversal states are state numbers. -/
def DFA.auto (dfa : DFA) : Auto ℕ :=
  { start := AUTO_START,
    next_state := fun s b => (dfa.states.getD s default).transitions b,
    has_match := fun s k =>
      k < (dfa.states.getD s default).pattern_ends.length,
    get_match := fun s k off =>
      ((dfa.states.getD s default).pattern_ends.get? k).map (fun pn =>
        ⟨pn, off - (dfa.dict.getD pn default).length, off⟩) }

/-- The spec's description of the iterator, for comparison with
`matchesFrom`: identical except that after yielding a match the traversal
state is reset to the automaton's start state ("After yielding a match, the
automaton's traversal state is reset to `start_state`"). -/
def specResetMatchesFrom {S : Type} (a : Auto S) (input : List Input)
    (ms : ℕ × S) : List Match :=
  match h : matchesNext a input ms with
  | none => []
  | some (m, ms') => m :: specResetMatchesFrom a input (ms'.1, a.start)
termination_by input.length + 1 - ms.1
decreasing_by
  simp only [matchesNext] at h
  split at h
  · rename_i hlt
    rcases Option.map_eq_some'.mp h with ⟨m', hm', he⟩
    cases he
    have := innerLoop_offset_le a input ms.2 ms.1
    simp only
    omega
  · exact absurd h (by simp)

/-- The spec's `find`, with reset-to-start after every yielded match. -/
def specResetFind {S : Type} (a : Auto S) (input : List Input) : List Match :=
  specResetMatchesFrom a input (0, a.start)

/-- A single-pass scan over the input that threads the current traversal
state through every yielded match (never resetting): the reference
description of what the iterator actually computes. -/
def scanCont {S : Type} (a : Auto S) (input : List Input) (st : S)
    (offset : ℕ) : List Match :=
  if h : offset < input.length then
    let st' := a.next_state st (input.getD offset default)
    if a.has_match st' 0 then
      match a.get_match st' 0 offset with
      | some m => m :: scanCont a input st' (offset + 1)
      | none => []
    else scanCont a input st' (offset + 1)
  else []
termination_by input.length - offset

/-! ## Well-formedness of NFAs

Every `NFA` value the library can build (`new`, `from_dictionary`, then any
of `ignore_prefixes`, `ignore_postfixes`, `powerset_construction`)
satisfies these invariants; several claims quantify over such NFAs. -/

/-- Every transition set stored in the map of any state is nonempty (the
code only ever creates an entry by inserting into it). -/
def TransNonempty (nfa : NFA) : Prop :=
  ∀ st ∈ nfa.states, ∀ b, st.transitions b ≠ some []

instance (nfa : NFA) : Decidable (TransNonempty nfa) := by
  unfold TransNonempty
  refine List.decidableBAll _ _

/-- The invariants of a dictionary-built NFA used by the powerset- and
lowering-correctness proofs: bytes with an entry are in the alphabet, the
alphabet has no duplicates, targets are valid state indices, there are at
least the two reserved states, the stuck state has no transitions and no
pattern ends, and no pattern number is recorded twice across the whole
automaton. -/
structure NFAInv (nfa : NFA) : Prop where
  two_le : 2 ≤ nfa.states.length
  alpha_nodup : nfa.alphabet.Nodup
  trans_alpha : ∀ st ∈ nfa.states, ∀ b, st.transitions b ≠ none →
    b ∈ nfa.alphabet
  targets_lt : ∀ st ∈ nfa.states, ∀ b,
    ∀ t ∈ (st.transitions b).getD [], t < nfa.states.length
  stuck_trans : ∀ b, (nfa.states.getD AUTO_STUCK default).transitions b = none
  stuck_ends : (nfa.states.getD AUTO_STUCK default).pattern_ends = []
  ends_nodup : (nfa.states.flatMap NFAState.pattern_ends).Nodup

/-- The deterministic walk through the trie that `from_dictionary` builds:
follow the (unique) existing transition on each byte. -/
def walk (states : List NFAState) : ℕ → List Input →
    Option ℕ
  | cur, [] => some cur
  | cur, b :: rest =>
      match (states.getD cur default).firstTarget b with
      | some s => walk states s rest
      | none => none

/-- All pattern numbers recorded anywhere in a state array. -/
def allEnds (states : List NFAState) : List ℕ :=
  states.flatMap NFAState.pattern_ends

/-- `s2` extends `s1`: states are only appended, stored transition entries
are never changed once created, and pattern-end lists only grow at the end.
Every step of `from_dictionary` extends the state array in this sense. -/
structure StExt (s1 s2 : List NFAState) : Prop where
  len_le : s1.length ≤ s2.length
  trans_pres : ∀ i b S, (s1.getD i default).transitions b = some S →
    (s2.getD i default).transitions b = some S
  ends_ext : ∀ i, ∃ l, (s2.getD i default).pattern_ends =
    (s1.getD i default).pattern_ends ++ l

/-- The invariant `from_dictionary` maintains on its state array while
inserting patterns whose bytes all lie in `univ` (the bytes of the whole
dictionary): two reserved states, every stored target a trie state
(`2 ≤ t < len`), no stored empty set, entries only on bytes of `univ`,
and an untouched stuck state. -/
structure BuildInv (univ : List Input) (states : List NFAState) : Prop where
  two_le : 2 ≤ states.length
  targets_ok : ∀ st ∈ states, ∀ b,
    ∀ t ∈ (st.transitions b).getD [], 2 ≤ t ∧ t < states.length
  sets_ne : ∀ st ∈ states, ∀ b, st.transitions b ≠ some []
  bytes_sub : ∀ st ∈ states, ∀ b, st.transitions b ≠ none → b ∈ univ
  stuck_trans : ∀ b, (states.getD AUTO_STUCK default).transitions b = none
  stuck_ends : (states.getD AUTO_STUCK default).pattern_ends = []

/-- A position in the trie walk: the start state or a trie state. -/
structure CurOk (states : List NFAState) (cur : ℕ) : Prop where
  lt : cur < states.length
  kind : cur = AUTO_START ∨ 2 ≤ cur

/-! ## Concrete instances used by counterexamples and witnesses -/

/-- The byte `b'a'`. -/
def bytA : Input := ⟨97, by omega⟩

/-- The byte `b'b'`. -/
def bytB : Input := ⟨98, by omega⟩

/-- `NFA::from_dictionary(&["a"])`. -/
def nfaSingleA : NFA := NFA.from_dictionary [[bytA]]

/-- `NFA::from_dictionary(&["aa"])` with `ignore_prefixes` applied. -/
def nfaAA : NFA := (NFA.from_dictionary [[bytA, bytA]]).ignore_prefixes

/-- `NFA::from_dictionary(&["aa", "a"])` with `ignore_prefixes` applied. -/
def nfaAAandA : NFA :=
  (NFA.from_dictionary [[bytA, bytA], [bytA]]).ignore_prefixes

/-- Extract the success value of an `Except`, with a fallback. -/
def exceptD {ε α : Type} (e : Except ε α) (d : α) : α :=
  match e with
  | .ok a => a
  | .error _ => d

/-- The DFA a successful `into_dfa` produces (fallback: the empty DFA). -/
def theDfa (nfa : NFA) : DFA := exceptD nfa.into_dfa ⟨[], [], []⟩

/-- The DDFA a successful `into_ddfa` produces (fallback: the empty DDFA). -/
def theDdfa (dfa : DFA) : DDFA := exceptD dfa.into_ddfa ⟨[], []⟩

/-! # Theorems -/

theorem exceptD_ok {ε α : Type} (e : Except ε α) (d : α)
    (h : e.isOk = true) : e = .ok (exceptD e d) := by
  cases e with
  | ok a => rfl
  | error b => simp [Except.isOk, Except.toBool] at h

/-! ## Basic lemmas about states and transformations -/

theorem insertTransition_pattern_ends (st : NFAState) (b : Input)
    (t : ℕ) :
    (st.insertTransition b t).pattern_ends = st.pattern_ends := rfl

theorem foldl_insertTransition_pattern_ends (l : List Input) (st : NFAState)
    (f : ℕ) :
    (l.foldl (fun s b => s.insertTransition b f) st).pattern_ends =
      st.pattern_ends := by
  induction l generalizing st with
  | nil => rfl
  | cons b l ih => rw [List.foldl_cons, ih, insertTransition_pattern_ends]

theorem loopAll_pattern_ends (st : NFAState) (f : ℕ) :
    (loopAll st f).pattern_ends = st.pattern_ends :=
  foldl_insertTransition_pattern_ends _ _ _

theorem loopAll_is_final (st : NFAState) (f : ℕ) :
    (loopAll st f).is_final = st.is_final := by
  rw [NFAState.is_final, NFAState.is_final, loopAll_pattern_ends]

/-! ## C8: the two `ignore_*` transformations commute -/

/-- C8: for every NFA (in particular the one built from any dictionary),
applying `ignore_prefixes` then `ignore_postfixes` yields the same
automaton — hence the same `apply` result on every input — as applying them
in the opposite order. -/
theorem ignore_prefixes_postfixes_comm (nfa : NFA) :
    nfa.ignore_postfixes.ignore_prefixes = nfa.ignore_prefixes.ignore_postfixes
    ∧ ∀ input, nfa.ignore_postfixes.ignore_prefixes.apply input =
        nfa.ignore_prefixes.ignore_postfixes.apply input := by
  have hstates : nfa.ignore_postfixes.ignore_prefixes.states =
      nfa.ignore_prefixes.ignore_postfixes.states := by
    simp only [NFA.ignore_prefixes, NFA.ignore_postfixes, AUTO_START]
    apply List.ext_getElem
    · simp
    · intro i h1 h2
      simp only [List.length_set, List.length_map, List.enum_length] at h1 h2
      rw [List.getElem_set, List.getElem_map, List.getElem_enum,
        List.getElem_map, List.getElem_enum, List.getElem_set]
      by_cases hi : 0 = i
      · subst hi
        rw [if_pos rfl, if_pos rfl]
        rw [List.getD_eq_getElem _ _ (by simpa using h1),
          List.getD_eq_getElem _ _ h1]
        rw [List.getElem_map, List.getElem_enum]
        simp only [loopAll_is_final]
        by_cases hf : (nfa.states[0]).is_final
        · rw [if_pos hf, if_pos hf]
        · rw [if_neg hf, if_neg hf]
      · rw [if_neg hi, if_neg hi]
  have hmain : nfa.ignore_postfixes.ignore_prefixes =
      nfa.ignore_prefixes.ignore_postfixes := by
    have h1 : nfa.ignore_postfixes.ignore_prefixes.alphabet =
        nfa.ignore_prefixes.ignore_postfixes.alphabet := rfl
    have h2 : nfa.ignore_postfixes.ignore_prefixes.dict =
        nfa.ignore_prefixes.ignore_postfixes.dict := rfl
    cases hl : nfa.ignore_postfixes.ignore_prefixes
    cases hr : nfa.ignore_prefixes.ignore_postfixes
    rw [hl, hr] at hstates h1 h2
    simp only at hstates h1 h2
    rw [hstates, h1, h2]
  exact ⟨hmain, fun input => by rw [hmain]⟩

/-! ## C9: what `NFA::apply` returns -/

/-- C9 counterexample: on the NFA for dictionary `["aa", "a"]` with
`ignore_prefixes`, `apply "aa")` returns `[1, 0]` — the pattern indices are
listed in ascending order of the *state* holding them, not in ascending
order of pattern number. -/
theorem apply_ordering_counterexample :
    nfaAAandA.apply [bytA, bytA] = [1, 0] ∧
      ¬ List.Sorted (· ≤ ·) (nfaAAandA.apply [bytA, bytA]) := by
  constructor
  · decide
  · intro hs
    rw [show nfaAAandA.apply [bytA, bytA] = [1, 0] from by decide] at hs
    have h10 : (1 : ℕ) ≤ 0 := List.rel_of_sorted_cons hs 0 (by simp)
    omega

/-- C9 (amended): `apply` returns exactly the pattern indices that end in
some state of the final active-state set (the concatenation runs over
active states in ascending state order, so it need not be sorted by pattern
number). -/
theorem apply_mem_iff (nfa : NFA) (input : List Input) (i : ℕ) :
    i ∈ nfa.apply input ↔
      ∃ s ∈ nrun nfa [AUTO_START] input,
        i ∈ (nfa.states.getD s default).pattern_ends := by
  simp [NFA.apply, List.mem_flatMap]

/-! ## C1: the offsets carried by yielded matches -/

/-- C1 (code evaluation at the failing input): with the single-byte
dictionary `["a"]` and input `"a"`, the first yielded match is
`{pattern_no: 0, start: 0 - 1, end: 0}` — not `{pattern_no: 0, start: 0,
end: 1}` as specified. `Matches::next` hands `get_match` the un-incremented
`offset` (the index *of* the last consumed byte, not just past it), so
`end = 0`, and `start = end - len` underflows `usize` (truncated
subtraction here; a panic in a debug build of the source). -/
theorem find_single_byte_match_offsets :
    findMatches (NFA.auto nfaSingleA) [bytA] = [⟨0, 0, 0⟩] ∧
      (⟨0, 0, 0⟩ : Match) ≠ ⟨0, 0, 1⟩ := by
  constructor
  · have h1 : matchesNext (NFA.auto nfaSingleA) [bytA]
        (0, (NFA.auto nfaSingleA).start) = some (⟨0, 0, 0⟩, (1, [2])) := by
      decide
    have h2 : matchesNext (NFA.auto nfaSingleA) [bytA] (1, [2]) = none := by
      decide
    rw [findMatches, matchesFrom.eq_def, h1]
    dsimp only
    rw [matchesFrom.eq_def, h2]
  · decide

/-! ## C2: the iterator does not reset after a match -/

theorem matchesFrom_congr {S : Type} (a : Auto S) (input : List Input)
    (ms1 ms2 : ℕ × S)
    (h : matchesNext a input ms1 = matchesNext a input ms2) :
    matchesFrom a input ms1 = matchesFrom a input ms2 := by
  rw [matchesFrom.eq_def, matchesFrom.eq_def, h]

theorem innerLoop_of_not_lt {S : Type} (a : Auto S) (input : List Input)
    (st : S) (offset : ℕ) (h : ¬ offset < input.length) :
    innerLoop a input st offset = (offset, st) := by
  rw [innerLoop, List.drop_eq_nil_of_le (by omega), innerLoopGo]

theorem innerLoop_of_lt {S : Type} (a : Auto S) (input : List Input)
    (st : S) (offset : ℕ) (h : offset < input.length) :
    innerLoop a input st offset =
      if a.has_match (a.next_state st (input.getD offset default)) 0
      then (offset, a.next_state st (input.getD offset default))
      else innerLoop a input
        (a.next_state st (input.getD offset default)) (offset + 1) := by
  conv_lhs => rw [innerLoop, List.drop_eq_getElem_cons h, innerLoopGo]
  rw [List.getD_eq_getElem _ _ h, innerLoop]

theorem matchesNext_of_match {S : Type} (a : Auto S) (input : List Input)
    (st : S) (offset : ℕ) (h : offset < input.length)
    (hm : a.has_match (a.next_state st (input.getD offset default)) 0) :
    matchesNext a input (offset, st) =
      (a.get_match (a.next_state st (input.getD offset default)) 0
        offset).map
        (fun m => (m, (offset + 1,
          a.next_state st (input.getD offset default)))) := by
  simp only [matchesNext, innerLoop_of_lt a input st offset h, if_pos hm]
  rw [if_pos h]

theorem matchesNext_of_no_match {S : Type} (a : Auto S) (input : List Input)
    (st : S) (offset : ℕ) (h : offset < input.length)
    (hm : ¬ a.has_match (a.next_state st (input.getD offset default)) 0) :
    matchesNext a input (offset, st) =
      matchesNext a input
        (offset + 1, a.next_state st (input.getD offset default)) := by
  simp only [matchesNext, innerLoop_of_lt a input st offset h, if_neg hm]

theorem matchesNext_of_not_lt {S : Type} (a : Auto S) (input : List Input)
    (st : S) (offset : ℕ) (h : ¬ offset < input.length) :
    matchesNext a input (offset, st) = none := by
  simp only [matchesNext, innerLoop_of_not_lt a input st offset h]
  rw [if_neg h]

theorem matchesFrom_eq_scanCont {S : Type} (a : Auto S) (input : List Input)
    (st : S) (offset : ℕ) :
    matchesFrom a input (offset, st) = scanCont a input st offset := by
  by_cases h : offset < input.length
  · by_cases hm : a.has_match (a.next_state st (input.getD offset default)) 0
    · rw [scanCont.eq_def, dif_pos h]
      dsimp only
      rw [if_pos hm]
      cases hg : a.get_match (a.next_state st (input.getD offset default)) 0
          offset with
      | none =>
          rw [matchesFrom.eq_def, matchesNext_of_match a input st offset h hm,
            hg]
          rfl
      | some m =>
          rw [matchesFrom.eq_def, matchesNext_of_match a input st offset h hm,
            hg]
          dsimp only [Option.map_some']
          rw [matchesFrom_eq_scanCont a input
            (a.next_state st (input.getD offset default)) (offset + 1)]
    · rw [scanCont.eq_def, dif_pos h]
      dsimp only
      rw [if_neg hm]
      rw [matchesFrom_congr a input _ _
        (matchesNext_of_no_match a input st offset h hm)]
      exact matchesFrom_eq_scanCont a input
        (a.next_state st (input.getD offset default)) (offset + 1)
  · rw [scanCont.eq_def, dif_neg h, matchesFrom.eq_def,
      matchesNext_of_not_lt a input st offset h]
termination_by input.length - offset
decreasing_by
  · omega
  · omega

/-- C2 (amended): after yielding a match, the iterator does *not* reset its
traversal state to `start_state`; it carries the state reached at the match
forward, so the yielded sequence is the one obtained by a single scan that
threads the current state through every match (only the offset advances
past each match's last consumed byte). -/
theorem find_continues_from_current_state {S : Type} (a : Auto S)
    (input : List Input) :
    findMatches a input = scanCont a input a.start 0 :=
  matchesFrom_eq_scanCont a input a.start 0

/-- C2 counterexample: for the `ignore_prefixes` NFA of dictionary
`["aa"]` on input `"baaa"`, the iterator yields two matches (the state kept
from the first match lets a second, overlapping occurrence be reported),
while the reset-to-start iterator described by the spec yields only one. -/
theorem find_reset_counterexample :
    findMatches (NFA.auto nfaAA) [bytB, bytA, bytA, bytA] ≠
      specResetFind (NFA.auto nfaAA) [bytB, bytA, bytA, bytA] := by
  have h1 : matchesNext (NFA.auto nfaAA) [bytB, bytA, bytA, bytA]
      (0, (NFA.auto nfaAA).start) = some (⟨0, 0, 2⟩, (3, [0, 2, 3])) := by
    decide
  have h2 : matchesNext (NFA.auto nfaAA) [bytB, bytA, bytA, bytA]
      (3, [0, 2, 3]) = some (⟨0, 1, 3⟩, (4, [0, 2, 3])) := by decide
  have h3 : matchesNext (NFA.auto nfaAA) [bytB, bytA, bytA, bytA]
      (4, [0, 2, 3]) = none := by decide
  have h4 : matchesNext (NFA.auto nfaAA) [bytB, bytA, bytA, bytA]
      (3, (NFA.auto nfaAA).start) = none := by decide
  have hcode : findMatches (NFA.auto nfaAA) [bytB, bytA, bytA, bytA] =
      [⟨0, 0, 2⟩, ⟨0, 1, 3⟩] := by
    rw [findMatches, matchesFrom.eq_def, h1]
    dsimp only
    rw [matchesFrom.eq_def, h2]
    dsimp only
    rw [matchesFrom.eq_def, h3]
  have hspec : specResetFind (NFA.auto nfaAA) [bytB, bytA, bytA, bytA] =
      [⟨0, 0, 2⟩] := by
    rw [specResetFind, specResetMatchesFrom.eq_def, h1]
    dsimp only
    rw [specResetMatchesFrom.eq_def, h4]
  rw [hcode, hspec]
  simp

/-! ## C10: `has_match` exactly guards `get_match`'s panic -/

/-- C10: for the NFA automaton interface, `get_match` reaches its panic
branch (modelled by `none`) exactly when `has_match` is false; whenever
`has_match` is true, `get_match` returns a `Match`. -/
theorem nfa_get_match_none_iff (nfa : NFA) (S : List ℕ)
    (k off : ℕ) :
    (NFA.auto nfa).get_match S k off = none ↔
      (NFA.auto nfa).has_match S k = false := by
  simp [NFA.auto, List.findSome?_eq_none, List.any_eq_false,
    Option.map_eq_none', List.get?_eq_none, Nat.not_lt]

/-! ## C5: when `into_dfa` fails, and the dense rows it builds -/

theorem badEntry_iff (st : NFAState) (b : Input) :
    st.badEntry b = true ↔
      ∃ S, st.transitions b = some S ∧ S.length ≠ 1 := by
  rw [NFAState.badEntry]
  cases h : st.transitions b <;> simp [h]

theorem NFAState.into_dfa_error_iff (st : NFAState) :
    st.into_dfa = .error () ↔
      ∃ b S, st.transitions b = some S ∧ S.length ≠ 1 := by
  rw [NFAState.into_dfa]
  by_cases hc : allBytes.any st.badEntry
  · rw [if_pos hc]
    simp only [true_iff]
    rcases List.any_eq_true.mp hc with ⟨b, _, hb⟩
    exact ⟨b, (badEntry_iff st b).mp hb⟩
  · rw [if_neg hc]
    simp only [List.any_eq_true, not_exists] at hc
    constructor
    · intro h
      exact absurd h (by simp)
    · rintro ⟨b, S, hS, hlen⟩
      have hb : st.badEntry b = true := (badEntry_iff st b).mpr ⟨S, hS, hlen⟩
      have hmem : b ∈ allBytes := by simp [allBytes, List.mem_finRange]
      exact absurd ⟨hmem, hb⟩ (hc b)

theorem NFAState.into_dfa_ok (st : NFAState) (d : DFAState)
    (h : st.into_dfa = .ok d) :
    d.pattern_ends = st.pattern_ends ∧
    ∀ b, d.transitions b =
      match st.transitions b with
      | none => AUTO_STUCK
      | some s => s.headD AUTO_STUCK := by
  rw [NFAState.into_dfa] at h
  by_cases hc : allBytes.any st.badEntry
  · rw [if_pos hc] at h
    exact absurd h (by simp)
  · rw [if_neg hc] at h
    cases h
    exact ⟨rfl, fun b => rfl⟩

theorem intoDfaStates_error_iff (l : List NFAState) :
    intoDfaStates l = .error () ↔ ∃ st ∈ l, st.into_dfa = .error () := by
  induction l with
  | nil => simp [intoDfaStates]
  | cons st l ih =>
      rw [intoDfaStates]
      cases hst : st.into_dfa with
      | error e =>
          cases e
          simp [hst, bind, Except.bind]
      | ok d =>
          cases hl : intoDfaStates l with
          | error e =>
              cases e
              simp [hst, hl, bind, Except.bind, ih.mp hl]
          | ok ds =>
              simp only [hst, hl, bind, Except.bind, pure, Except.pure]
              simp only [List.mem_cons]
              constructor
              · intro h
                exact absurd h (by simp)
              · rintro ⟨x, hx, herr⟩
                rcases hx with hx | hx
                · subst hx
                  rw [herr] at hst
                  exact absurd hst (by simp)
                · have : intoDfaStates l = .error () := ih.mpr ⟨x, hx, herr⟩
                  rw [this] at hl
                  exact absurd hl (by simp)

theorem intoDfaStates_ok (l : List NFAState) (res : List DFAState)
    (h : intoDfaStates l = .ok res) :
    res.length = l.length ∧
    ∀ i, i < l.length →
      (l.getD i default).into_dfa = .ok (res.getD i default) := by
  induction l generalizing res with
  | nil =>
      simp only [intoDfaStates, Except.ok.injEq] at h
      subst h
      exact ⟨rfl, fun i hi => absurd hi (by simp)⟩
  | cons st l ih =>
      rw [intoDfaStates] at h
      cases hst : st.into_dfa with
      | error e =>
          rw [hst] at h
          exact absurd h (by simp [bind, Except.bind])
      | ok d =>
          rw [hst] at h
          cases hl : intoDfaStates l with
          | error e =>
              rw [hl] at h
              exact absurd h (by simp [bind, Except.bind])
          | ok ds =>
              rw [hl] at h
              simp only [bind, Except.bind, pure, Except.pure,
                Except.ok.injEq] at h
              subst h
              rcases ih ds hl with ⟨hlen, hidx⟩
              refine ⟨by simp [hlen], ?_⟩
              intro i hi
              cases i with
              | zero => simpa using hst
              | succ j =>
                  simpa using hidx j (by simpa using hi)

/-- C5: `into_dfa` on an NFA whose stored transition sets are nonempty (true
of every NFA the library builds) fails exactly when some state has a
transition set of more than one target on some byte; on success each state's
dense 256-entry row sends every byte absent from the source map to
`AUTO_STUCK` (and every present byte to its unique target). -/
theorem into_dfa_characterization (nfa : NFA) (hne : TransNonempty nfa) :
    (nfa.into_dfa = .error () ↔
      ∃ st ∈ nfa.states, ∃ b S, st.transitions b = some S ∧ 1 < S.length) ∧
    (∀ dfa, nfa.into_dfa = .ok dfa →
      dfa.states.length = nfa.states.length ∧
      ∀ i, i < nfa.states.length → ∀ b,
        ((nfa.states.getD i default).transitions b = none →
          (dfa.states.getD i default).transitions b = AUTO_STUCK) ∧
        (∀ S, (nfa.states.getD i default).transitions b = some S →
          (dfa.states.getD i default).transitions b =
            S.headD AUTO_STUCK)) := by
  constructor
  · rw [NFA.into_dfa]
    cases hm : intoDfaStates nfa.states with
    | error e =>
        cases e
        simp only [bind, Except.bind, true_iff]
        rcases (intoDfaStates_error_iff nfa.states).mp hm with
          ⟨st, hmem, hst⟩
        rcases (NFAState.into_dfa_error_iff st).mp hst with ⟨b, S, hS, hlen⟩
        have hSne : S ≠ [] := by
          intro hnil
          exact hne st hmem b (hnil ▸ hS)
        refine ⟨st, hmem, b, S, hS, ?_⟩
        cases S with
        | nil => exact absurd rfl hSne
        | cons x xs =>
            cases xs with
            | nil => simp at hlen
            | cons y ys => simp
    | ok states =>
        simp only [bind, Except.bind, pure, Except.pure]
        constructor
        · intro h
          exact absurd h (by simp)
        · rintro ⟨st, hmem, b, S, hS, hlen⟩
          have herr : st.into_dfa = .error () :=
            (NFAState.into_dfa_error_iff st).mpr ⟨b, S, hS, by omega⟩
          have : intoDfaStates nfa.states = .error () :=
            (intoDfaStates_error_iff nfa.states).mpr ⟨st, hmem, herr⟩
          rw [this] at hm
          exact absurd hm (by simp)
  · intro dfa hok
    rw [NFA.into_dfa] at hok
    cases hm : intoDfaStates nfa.states with
    | error e =>
        rw [hm] at hok
        exact absurd hok (by simp [bind, Except.bind])
    | ok states =>
        rw [hm] at hok
        simp only [bind, Except.bind, pure, Except.pure,
          Except.ok.injEq] at hok
        subst hok
        rcases intoDfaStates_ok nfa.states states hm with ⟨hlen, hidx⟩
        refine ⟨hlen, ?_⟩
        intro i hi b
        rcases NFAState.into_dfa_ok _ _ (hidx i hi) with ⟨_, htr⟩
        constructor
        · intro hnone
          rw [htr b, hnone]
        · intro S hS
          rw [htr b, hS]

/-- C5 witness: the trie NFA of `["a"]` has nonempty transition sets, its
`into_dfa` succeeds, and the DFA has one dense state per NFA state. -/
theorem into_dfa_characterization_witness :
    nfaSingleA.into_dfa = .ok (theDfa nfaSingleA) ∧
      (theDfa nfaSingleA).states.length = nfaSingleA.states.length := by
  have hok : nfaSingleA.into_dfa = .ok (theDfa nfaSingleA) :=
    exceptD_ok _ _ (by decide)
  exact ⟨hok, ((into_dfa_characterization nfaSingleA (by decide)).2
    (theDfa nfaSingleA) hok).1⟩

/-! ## C6: when `into_ddfa` fails, and what it builds on success -/

/-- C6: `into_ddfa` fails exactly when some stored transition index is `≥`
the number of states; on success every transition reference of every DDFA
state resolves inside that DDFA's own state array (and equals the source
index), and each state's pattern-ends list and `is_final` bit are those of
the corresponding DFA state. -/
theorem into_ddfa_characterization (dfa : DFA) :
    (dfa.into_ddfa = .error () ↔
      ∃ st ∈ dfa.states, ∃ b, dfa.states.length ≤ st.transitions b) ∧
    (∀ ddfa, dfa.into_ddfa = .ok ddfa →
      ddfa.states.length = dfa.states.length ∧
      ∀ i, i < dfa.states.length →
        (∀ b,
          (ddfa.states.getD i default).transitions b < ddfa.states.length ∧
          (ddfa.states.getD i default).transitions b =
            (dfa.states.getD i default).transitions b) ∧
        (ddfa.states.getD i default).pattern_ends =
          (dfa.states.getD i default).pattern_ends ∧
        (ddfa.states.getD i default).is_final = dfa.finals.getD i false) := by
  by_cases hbad : dfa.states.any
      (fun st => allBytes.any (fun b => dfa.states.length ≤ st.transitions b))
  · rw [DFA.into_ddfa, if_pos hbad]
    constructor
    · simp only [true_iff]
      rcases List.any_eq_true.mp hbad with ⟨st, hmem, hst⟩
      rcases List.any_eq_true.mp hst with ⟨b, _, hb⟩
      exact ⟨st, hmem, b, by simpa using hb⟩
    · intro ddfa h
      exact absurd h (by simp)
  · rw [DFA.into_ddfa, if_neg hbad]
    constructor
    · constructor
      · intro h
        exact absurd h (by simp)
      · rintro ⟨st, hmem, b, hb⟩
        refine absurd ?_ hbad
        refine List.any_eq_true.mpr ⟨st, hmem, ?_⟩
        refine List.any_eq_true.mpr ⟨b, by simp [allBytes, List.mem_finRange],
          by simpa using hb⟩
    · intro ddfa h
      simp only [Except.ok.injEq] at h
      subst h
      have hlt : ∀ st ∈ dfa.states, ∀ b,
          st.transitions b < dfa.states.length := by
        intro st hmem b
        by_contra hge
        refine hbad (List.any_eq_true.mpr ⟨st, hmem,
          List.any_eq_true.mpr ⟨b, by simp [allBytes, List.mem_finRange],
            ?_⟩⟩)
        simpa using Nat.le_of_not_lt hge
      constructor
      · simp
      · intro i hi
        have hget : (dfa.states.enum.map
            (fun p => (⟨p.2.transitions, p.2.pattern_ends,
              dfa.finals.getD p.1 false⟩ : DDFAState))).getD i default =
            ⟨(dfa.states.getD i default).transitions,
             (dfa.states.getD i default).pattern_ends,
             dfa.finals.getD i false⟩ := by
          rw [List.getD_eq_getElem _ _ (by simpa using hi),
            List.getElem_map, List.getElem_enum,
            List.getD_eq_getElem _ _ hi]
        rw [hget]
        refine ⟨?_, rfl, rfl⟩
        intro b
        refine ⟨?_, rfl⟩
        have hmem : dfa.states.getD i default ∈ dfa.states := by
          rw [List.getD_eq_getElem _ _ hi]
          exact List.getElem_mem hi
        simpa using hlt _ hmem b

/-- C6 witness: the DFA lowered from the `["a"]` trie passes `into_ddfa`,
and the DDFA has as many states as the DFA. -/
theorem into_ddfa_characterization_witness :
    (theDfa nfaSingleA).into_ddfa = .ok (theDdfa (theDfa nfaSingleA)) ∧
      (theDdfa (theDfa nfaSingleA)).states.length =
        (theDfa nfaSingleA).states.length := by
  have hok : (theDfa nfaSingleA).into_ddfa =
      .ok (theDdfa (theDfa nfaSingleA)) :=
    exceptD_ok _ _ (by decide)
  exact ⟨hok, ((into_ddfa_characterization (theDfa nfaSingleA)).2
    _ hok).1⟩

/-! ## The canonical sorted-set representation -/

theorem mem_insertSorted {α : Type} [LinearOrder α] (x a : α) (l : List α) :
    a ∈ insertSorted x l ↔ a = x ∨ a ∈ l := by
  induction l with
  | nil => simp [insertSorted]
  | cons y ys ih =>
      rw [insertSorted]
      split
      · simp [List.mem_cons]
      · split
        next heq =>
            subst heq
            simp [List.mem_cons]
        next => simp [List.mem_cons, ih]; tauto

theorem sorted_insertSorted {α : Type} [LinearOrder α] (x : α) (l : List α)
    (h : l.Sorted (· < ·)) : (insertSorted x l).Sorted (· < ·) := by
  induction l with
  | nil => simp [insertSorted]
  | cons y ys ih =>
      rw [insertSorted]
      rcases List.sorted_cons.mp h with ⟨hy, hys⟩
      rcases lt_trichotomy x y with h1 | h1 | h1
      · rw [if_pos h1]
        refine List.sorted_cons.mpr ⟨?_, h⟩
        intro b hb
        rcases List.mem_cons.mp hb with hb | hb
        · exact hb ▸ h1
        · exact lt_trans h1 (hy b hb)
      · rw [if_neg (by rw [h1]; exact lt_irrefl y), if_pos h1]
        exact h
      · rw [if_neg (asymm h1), if_neg (ne_of_gt h1)]
        refine List.sorted_cons.mpr ⟨?_, ih hys⟩
        intro b hb
        rcases (mem_insertSorted x b ys).mp hb with hb | hb
        · exact hb ▸ h1
        · exact hy b hb

theorem mem_extendSorted {α : Type} [LinearOrder α] (a : α) (acc l : List α) :
    a ∈ extendSorted acc l ↔ a ∈ acc ∨ a ∈ l := by
  induction l generalizing acc with
  | nil => simp [extendSorted]
  | cons x xs ih =>
      rw [extendSorted, List.foldl_cons]
      rw [show (xs.foldl (fun a x => insertSorted x a) (insertSorted x acc)) =
        extendSorted (insertSorted x acc) xs from rfl]
      rw [ih, mem_insertSorted]
      simp [List.mem_cons]
      tauto

theorem sorted_extendSorted {α : Type} [LinearOrder α] (acc l : List α)
    (h : acc.Sorted (· < ·)) : (extendSorted acc l).Sorted (· < ·) := by
  induction l generalizing acc with
  | nil => exact h
  | cons x xs ih =>
      rw [extendSorted, List.foldl_cons]
      exact ih _ (sorted_insertSorted x acc h)

theorem sorted_lt_nodup {α : Type} [LinearOrder α] {l : List α}
    (h : l.Sorted (· < ·)) : l.Nodup :=
  h.nodup

/-- Two canonical sorted sets with the same members are equal. -/
theorem sorted_eq_of_mem_iff {α : Type} [LinearOrder α] {l l' : List α}
    (hl : l.Sorted (· < ·)) (hl' : l'.Sorted (· < ·))
    (h : ∀ a, a ∈ l ↔ a ∈ l') : l = l' := by
  refine List.eq_of_perm_of_sorted ?_ hl hl'
  refine List.perm_of_nodup_nodup_toFinset_eq hl.nodup hl'.nodup ?_
  ext a
  simp [List.mem_toFinset, h]

/-! ## Basic facts about `nstep`, `nrun` and `finUnion` -/

theorem foldl_extend_mem {β : Type} (f : β → List ℕ) (S : List β)
    (acc : List ℕ) (a : ℕ) :
    a ∈ S.foldl (fun acc s => extendSorted acc (f s)) acc ↔
      a ∈ acc ∨ ∃ s ∈ S, a ∈ f s := by
  induction S generalizing acc with
  | nil => simp
  | cons x xs ih =>
      rw [List.foldl_cons, ih, mem_extendSorted]
      simp [List.mem_cons]
      tauto

theorem foldl_extend_sorted {β : Type} (f : β → List ℕ) (S : List β)
    (acc : List ℕ) (h : acc.Sorted (· < ·)) :
    (S.foldl (fun acc s => extendSorted acc (f s)) acc).Sorted (· < ·) := by
  induction S generalizing acc with
  | nil => exact h
  | cons x xs ih => exact ih _ (sorted_extendSorted _ _ h)

theorem mem_nstep (nfa : NFA) (S : List ℕ) (b : Input)
    (t : ℕ) :
    t ∈ nstep nfa S b ↔ ∃ s ∈ S, t ∈ targets nfa s b := by
  rw [nstep, foldl_extend_mem]
  simp

theorem sorted_nstep (nfa : NFA) (S : List ℕ) (b : Input) :
    (nstep nfa S b).Sorted (· < ·) :=
  foldl_extend_sorted _ _ _ (by simp)

theorem mem_finUnion (nfa : NFA) (S : List ℕ) (b : Input)
    (i : ℕ) :
    i ∈ finUnion nfa S b ↔
      ∃ t ∈ nstep nfa S b, i ∈ (nfa.states.getD t default).pattern_ends := by
  rw [finUnion]
  have : ∀ acc, i ∈ S.foldl (fun acc s => (targets nfa s b).foldl
      (fun a t => extendSorted a (nfa.states.getD t default).pattern_ends)
      acc) acc ↔
      i ∈ acc ∨ ∃ s ∈ S, ∃ t ∈ targets nfa s b,
        i ∈ (nfa.states.getD t default).pattern_ends := by
    intro acc
    induction S generalizing acc with
    | nil => simp
    | cons x xs ih =>
        rw [List.foldl_cons, ih, foldl_extend_mem]
        constructor
        · rintro ((hacc | ⟨t, ht, hi⟩) | ⟨s, hs, t, ht, hi⟩)
          · exact Or.inl hacc
          · exact Or.inr ⟨x, List.mem_cons_self x xs, t, ht, hi⟩
          · exact Or.inr ⟨s, List.mem_cons_of_mem x hs, t, ht, hi⟩
        · rintro (hacc | ⟨s, hs, t, ht, hi⟩)
          · exact Or.inl (Or.inl hacc)
          · rcases List.mem_cons.mp hs with rfl | hs
            · exact Or.inl (Or.inr ⟨t, ht, hi⟩)
            · exact Or.inr ⟨s, hs, t, ht, hi⟩
  rw [this]
  simp only [List.not_mem_nil, false_or]
  constructor
  · rintro ⟨s, hs, t, ht, hi⟩
    exact ⟨t, (mem_nstep nfa S b t).mpr ⟨s, hs, ht⟩, hi⟩
  · rintro ⟨t, ht, hi⟩
    rcases (mem_nstep nfa S b t).mp ht with ⟨s, hs, hts⟩
    exact ⟨s, hs, t, hts, hi⟩

theorem sorted_finUnion (nfa : NFA) (S : List ℕ) (b : Input) :
    (finUnion nfa S b).Sorted (· < ·) := by
  rw [finUnion]
  have : ∀ acc, acc.Sorted (· < ·) →
      (S.foldl (fun acc s => (targets nfa s b).foldl
        (fun a t => extendSorted a (nfa.states.getD t default).pattern_ends)
        acc) acc).Sorted (· < ·) := by
    intro acc h
    induction S generalizing acc with
    | nil => exact h
    | cons x xs ih =>
        rw [List.foldl_cons]
        exact ih _ (foldl_extend_sorted _ _ _ h)
  exact this [] (by simp)

/-! ## List indexing helpers -/

theorem getD_set_self' {α : Type} [Inhabited α] (l : List α) (i : ℕ) (x : α)
    (h : i < l.length) : (l.set i x).getD i default = x := by
  rw [List.getD_eq_getElem _ _ (by simpa using h), List.getElem_set,
    if_pos rfl]

theorem getD_set_ne' {α : Type} [Inhabited α] (l : List α) (i j : ℕ) (x : α)
    (h : i ≠ j) : (l.set i x).getD j default = l.getD j default := by
  by_cases hj : j < l.length
  · rw [List.getD_eq_getElem _ _ (by simpa using hj),
      List.getD_eq_getElem _ _ hj, List.getElem_set, if_neg h]
  · rw [List.getD_eq_default _ _ (by simpa using hj),
      List.getD_eq_default _ _ (by omega)]

theorem getD_append_left' {α : Type} [Inhabited α] (l l' : List α) (i : ℕ)
    (h : i < l.length) : (l ++ l').getD i default = l.getD i default := by
  rw [List.getD_eq_getElem _ _ (by simp; omega), List.getD_eq_getElem _ _ h,
    List.getElem_append_left h]

theorem getD_append_at {α : Type} [Inhabited α] (l : List α) (x : α) :
    (l ++ [x]).getD l.length default = x := by
  rw [List.getD_eq_getElem _ _ (by simp)]
  simp

theorem getD_past {α : Type} [Inhabited α] (l : List α) (i : ℕ)
    (h : l.length ≤ i) : l.getD i default = default :=
  List.getD_eq_default _ _ h

/-! ## The extension order on state arrays -/

theorem StExt.refl (s : List NFAState) : StExt s s :=
  ⟨le_refl _, fun _ _ _ h => h, fun i => ⟨[], by simp⟩⟩

theorem StExt.trans {s1 s2 s3 : List NFAState} (h1 : StExt s1 s2)
    (h2 : StExt s2 s3) : StExt s1 s3 := by
  refine ⟨le_trans h1.len_le h2.len_le,
    fun i b S h => h2.trans_pres i b S (h1.trans_pres i b S h), fun i => ?_⟩
  rcases h1.ends_ext i with ⟨l1, hl1⟩
  rcases h2.ends_ext i with ⟨l2, hl2⟩
  exact ⟨l1 ++ l2, by rw [hl2, hl1, List.append_assoc]⟩

theorem firstTarget_pres {s1 s2 : List NFAState} (h : StExt s1 s2)
    (i : ℕ) (b : Input) (s : ℕ)
    (hf : (s1.getD i default).firstTarget b = some s) :
    (s2.getD i default).firstTarget b = some s := by
  rw [NFAState.firstTarget] at hf ⊢
  cases ht : (s1.getD i default).transitions b with
  | none => rw [ht] at hf; simp at hf
  | some S => rw [h.trans_pres i b S ht]; rw [ht] at hf; exact hf

theorem walk_pres {s1 s2 : List NFAState} (h : StExt s1 s2)
    (p : List Input) (cur t : ℕ)
    (hw : walk s1 cur p = some t) : walk s2 cur p = some t := by
  induction p generalizing cur with
  | nil => exact hw
  | cons b rest ih =>
      rw [walk] at hw ⊢
      cases hf : (s1.getD cur default).firstTarget b with
      | none => rw [hf] at hw; simp at hw
      | some s =>
          rw [hf] at hw
          rw [firstTarget_pres h cur b s hf]
          exact ih s hw

theorem mem_ends_pres {s1 s2 : List NFAState} (h : StExt s1 s2)
    (t : ℕ) (i : ℕ)
    (hm : i ∈ (s1.getD t default).pattern_ends) :
    i ∈ (s2.getD t default).pattern_ends := by
  rcases h.ends_ext t with ⟨l, hl⟩
  rw [hl]
  exact List.mem_append_left _ hm

/-! ## One `addByte` step -/

/-! ## One `addByte` step -/

theorem trieStep_spec (univ : List Input) (states : List NFAState)
    (cur : ℕ) (b : Input) (hb : b ∈ univ)
    (hinv : BuildInv univ states) (hcur : CurOk states cur)
    (htb : (states.getD cur default).transitions b = none)
    (nxt : ℕ) (hnxt : nxt = states.length)
    (newst : NFAState)
    (hnewst : newst = (states.getD cur default).insertTransition b nxt)
    (states' : List NFAState)
    (hstates' : states' = (states ++ [NFAState.new]).set cur newst) :
    BuildInv univ states' ∧ CurOk states' nxt ∧ StExt states states' ∧
    allEnds states' = allEnds states ∧
    (states'.getD cur default).firstTarget b = some nxt := by
  have h2 : 2 ≤ states.length := hinv.two_le
  have hclt : cur < states.length := hcur.lt
  have hlen' : states'.length = states.length + 1 := by
    rw [hstates']
    simp
  have hcurlt : cur < (states ++ [NFAState.new]).length := by
    simp only [List.length_append, List.length_cons, List.length_nil]
    exact Nat.lt_succ_of_lt hclt
  have hg1 : states'.getD cur default = newst := by
    rw [hstates']
    exact getD_set_self' _ _ _ hcurlt
  have hg2 : ∀ j, j ≠ cur → j < states.length →
      states'.getD j default = states.getD j default := by
    intro j hj hjl
    rw [hstates', getD_set_ne' _ _ _ _ (fun he => hj he.symm),
      getD_append_left' _ _ _ hjl]
  have hg3 : states'.getD nxt default = NFAState.new := by
    rw [hstates', getD_set_ne' _ _ _ _ (by omega)]
    rw [hnxt]
    exact getD_append_at states NFAState.new
  have hg4 : ∀ j, states.length + 1 ≤ j →
      states'.getD j default = default := by
    intro j hj
    rw [hstates']
    refine getD_past _ _ ?_
    simp only [List.length_set, List.length_append, List.length_cons,
      List.length_nil]
    omega
  have hcm : states.getD cur default ∈ states := by
    rw [List.getD_eq_getElem _ _ hclt]
    exact List.getElem_mem hclt
  have hnew_t : ∀ b', newst.transitions b' =
      if b' = b then some [nxt] else
        (states.getD cur default).transitions b' := by
    intro b'
    rw [hnewst]
    show (if b' = b then
      some (insertSorted nxt
        (((states.getD cur default).transitions b).getD []))
      else (states.getD cur default).transitions b') = _
    by_cases hbe : b' = b
    · rw [if_pos hbe, if_pos hbe, htb]
      rfl
    · rw [if_neg hbe, if_neg hbe]
  have hnew_e : newst.pattern_ends =
      (states.getD cur default).pattern_ends := by
    rw [hnewst]
    rfl
  have hmem' : ∀ st ∈ states', st = newst ∨ st = NFAState.new ∨
      st ∈ states := by
    intro st hst
    rw [hstates'] at hst
    rcases List.mem_or_eq_of_mem_set hst with hst | hst
    · rcases List.mem_append.mp hst with hst | hst
      · exact Or.inr (Or.inr hst)
      · exact Or.inr (Or.inl (by simpa using hst))
    · exact Or.inl hst
  have hext : StExt states states' := by
    refine ⟨by omega, ?_, ?_⟩
    · intro i b' S hS
      by_cases hi : i = cur
      · subst hi
        rw [hg1, hnew_t b']
        by_cases hbe : b' = b
        · subst hbe
          rw [htb] at hS
          simp at hS
        · rw [if_neg hbe]
          exact hS
      · by_cases hil : i < states.length
        · rw [hg2 i hi hil]
          exact hS
        · rw [getD_past _ _ (by omega)] at hS
          simp [default] at hS
    · intro i
      by_cases hi : i = cur
      · subst hi
        rw [hg1, hnew_e]
        exact ⟨[], by simp⟩
      · by_cases hil : i < states.length
        · rw [hg2 i hi hil]
          exact ⟨[], by simp⟩
        · rw [getD_past states _ (by omega)]
          by_cases hig : i < states.length + 1
          · have hie : i = nxt := by omega
            rw [hie, hg3]
            exact ⟨[], by simp [NFAState.new, default]⟩
          · rw [hg4 i (by omega)]
            exact ⟨[], by simp⟩
  have hinv' : BuildInv univ states' := by
    refine ⟨by omega, ?_, ?_, ?_, ?_, ?_⟩
    · intro st hst b' t ht
      rcases hmem' st hst with rfl | rfl | hst
      · rw [hnew_t b'] at ht
        by_cases hbe : b' = b
        · rw [if_pos hbe] at ht
          simp only [Option.getD_some, List.mem_singleton] at ht
          omega
        · rw [if_neg hbe] at ht
          have := hinv.targets_ok _ hcm b' t ht
          omega
      · simp [NFAState.new] at ht
      · have := hinv.targets_ok _ hst b' t ht
        omega
    · intro st hst b'
      rcases hmem' st hst with rfl | rfl | hst
      · rw [hnew_t b']
        by_cases hbe : b' = b
        · rw [if_pos hbe]
          simp
        · rw [if_neg hbe]
          exact hinv.sets_ne _ hcm b'
      · simp [NFAState.new]
      · exact hinv.sets_ne _ hst b'
    · intro st hst b'
      rcases hmem' st hst with rfl | rfl | hst
      · rw [hnew_t b']
        by_cases hbe : b' = b
        · intro _
          exact hbe ▸ hb
        · rw [if_neg hbe]
          intro hne
          exact hinv.bytes_sub _ hcm b' hne
      · simp [NFAState.new]
      · exact hinv.bytes_sub _ hst b'
    · intro b'
      have hcne : AUTO_STUCK ≠ cur := by
        rcases hcur.kind with h | h
        · rw [h]
          simp [AUTO_START, AUTO_STUCK]
        · simp only [AUTO_STUCK]
          omega
      rw [hg2 AUTO_STUCK hcne (by simp only [AUTO_STUCK]; omega)]
      exact hinv.stuck_trans b'
    · have hcne : AUTO_STUCK ≠ cur := by
        rcases hcur.kind with h | h
        · rw [h]
          simp [AUTO_START, AUTO_STUCK]
        · simp only [AUTO_STUCK]
          omega
      rw [hg2 AUTO_STUCK hcne (by simp only [AUTO_STUCK]; omega)]
      exact hinv.stuck_ends
  have hends : allEnds states' = allEnds states := by
    rw [hstates', allEnds, allEnds, List.set_append_left _ _ hclt,
      List.flatMap_append]
    simp only [List.flatMap_cons, List.flatMap_nil, NFAState.new,
      List.append_nil]
    have hgen : ∀ (l : List NFAState) (j : ℕ), j < l.length →
        ∀ x : NFAState, x.pattern_ends = (l.getD j default).pattern_ends →
        (l.set j x).flatMap NFAState.pattern_ends =
          l.flatMap NFAState.pattern_ends := by
      intro l
      induction l with
      | nil =>
          intro j hj
          simp at hj
      | cons y ys ih =>
          intro j hj x hx
          cases j with
          | zero =>
              simp only [List.set_cons_zero, List.flatMap_cons]
              rw [hx]
              simp [List.getD]
          | succ k =>
              simp only [List.set_cons_succ, List.flatMap_cons]
              rw [ih k (by simpa using hj) x (by simpa [List.getD] using hx)]
    rw [hgen states cur hclt newst hnew_e]
  refine ⟨hinv', ⟨by omega, Or.inr (by omega)⟩, hext, hends, ?_⟩
  rw [hg1, NFAState.firstTarget, hnew_t b, if_pos rfl]
  rfl

theorem addByte_spec (univ : List Input) (states : List NFAState)
    (cur : ℕ) (b : Input) (hb : b ∈ univ)
    (hinv : BuildInv univ states) (hcur : CurOk states cur) :
    BuildInv univ (addByte (states, cur) b).1 ∧
    CurOk (addByte (states, cur) b).1 (addByte (states, cur) b).2 ∧
    StExt states (addByte (states, cur) b).1 ∧
    allEnds (addByte (states, cur) b).1 = allEnds states ∧
    ((addByte (states, cur) b).1.getD cur default).firstTarget b =
      some (addByte (states, cur) b).2 := by
  rw [addByte]
  cases hft : (states.getD cur default).firstTarget b with
  | some s =>
      have hcm : states.getD cur default ∈ states := by
        rw [List.getD_eq_getElem _ _ hcur.lt]
        exact List.getElem_mem hcur.lt
      have hsmem : s ∈ ((states.getD cur default).transitions b).getD [] := by
        rw [NFAState.firstTarget] at hft
        cases ht : (states.getD cur default).transitions b with
        | none => rw [ht] at hft; simp at hft
        | some S =>
            rw [ht] at hft
            simpa using List.mem_of_mem_head? hft
      have := hinv.targets_ok _ hcm b s hsmem
      exact ⟨hinv, ⟨this.2, Or.inr this.1⟩, StExt.refl states, rfl, hft⟩
  | none =>
      have htb : (states.getD cur default).transitions b = none := by
        rw [NFAState.firstTarget] at hft
        cases ht : (states.getD cur default).transitions b with
        | none => rfl
        | some S =>
            rw [ht] at hft
            cases S with
            | nil =>
                have hcm : states.getD cur default ∈ states := by
                  rw [List.getD_eq_getElem _ _ hcur.lt]
                  exact List.getElem_mem hcur.lt
                exact absurd ht (hinv.sets_ne _ hcm b)
            | cons x xs => simp at hft
      exact trieStep_spec univ states cur b hb hinv hcur htb _ rfl _ rfl _ rfl

/-! ## Inserting one pattern -/

theorem foldl_addByte_spec (univ : List Input) (p : List Input)
    (hp : ∀ b ∈ p, b ∈ univ) (states : List NFAState) (cur : ℕ)
    (hinv : BuildInv univ states) (hcur : CurOk states cur) :
    BuildInv univ (p.foldl addByte (states, cur)).1 ∧
    CurOk (p.foldl addByte (states, cur)).1
      (p.foldl addByte (states, cur)).2 ∧
    StExt states (p.foldl addByte (states, cur)).1 ∧
    allEnds (p.foldl addByte (states, cur)).1 = allEnds states ∧
    walk (p.foldl addByte (states, cur)).1 cur p =
      some (p.foldl addByte (states, cur)).2 := by
  induction p generalizing states cur with
  | nil => exact ⟨hinv, hcur, StExt.refl states, rfl, rfl⟩
  | cons b rest ih =>
      rcases addByte_spec univ states cur b (hp b (by simp)) hinv hcur with
        ⟨hinv1, hcur1, hext1, hends1, hft1⟩
      rcases ih (fun b' hb' => hp b' (by simp [hb']))
        (addByte (states, cur) b).1 (addByte (states, cur) b).2 hinv1 hcur1
        with ⟨hinv2, hcur2, hext2, hends2, hwalk2⟩
      rw [List.foldl_cons]
      refine ⟨hinv2, hcur2, StExt.trans hext1 hext2, ?_, ?_⟩
      · rw [hends2, hends1]
      · rw [walk, firstTarget_pres hext2 cur b _ hft1]
        exact hwalk2

theorem getD_set_pushEnd_mem (states : List NFAState) (t k : ℕ)
    (ht : t < states.length) :
    k ∈ ((states.set t ((states.getD t default).pushEnd k)).getD t
      default).pattern_ends := by
  rw [getD_set_self' _ _ _ ht, NFAState.pushEnd]
  simp

theorem allEnds_set_pushEnd (states : List NFAState) (t k : ℕ)
    (ht : t < states.length) :
    (allEnds (states.set t ((states.getD t default).pushEnd k))).Perm
      (k :: allEnds states) := by
  induction states generalizing t with
  | nil => simp at ht
  | cons st rest ih =>
      cases t with
      | zero =>
          simp only [List.set_cons_zero, allEnds, List.flatMap_cons]
          have : (st.pushEnd k).pattern_ends = st.pattern_ends ++ [k] := rfl
          rw [show (st :: rest).getD 0 default = st from rfl, this,
            List.append_assoc]
          exact (List.perm_middle).trans (List.Perm.refl _)
      | succ j =>
          simp only [List.set_cons_succ, allEnds, List.flatMap_cons]
          have hj : j < rest.length := by simpa using ht
          have hgd : (st :: rest).getD (j + 1) default =
              rest.getD j default := rfl
          rw [hgd]
          refine ((ih j hj).append_left st.pattern_ends).trans ?_
          exact List.perm_middle

theorem addPattern_spec (univ : List Input) (states : List NFAState)
    (k : ℕ) (p : List Input) (hp : ∀ b ∈ p, b ∈ univ)
    (hinv : BuildInv univ states) :
    BuildInv univ (addPattern states k p) ∧
    StExt states (addPattern states k p) ∧
    (allEnds (addPattern states k p)).Perm (k :: allEnds states) ∧
    ∃ t, walk (addPattern states k p) 0 p = some t ∧
      k ∈ ((addPattern states k p).getD t default).pattern_ends := by
  have hcur0 : CurOk states AUTO_START :=
    ⟨by have := hinv.two_le; simp only [AUTO_START]; omega, Or.inl rfl⟩
  rcases foldl_addByte_spec univ p hp states AUTO_START hinv hcur0 with
    ⟨hinv1, hcur1, hext1, hends1, hwalk1⟩
  rw [addPattern]
  have hlt1 : (p.foldl addByte (states, AUTO_START)).2 <
      (p.foldl addByte (states, AUTO_START)).1.length := hcur1.lt
  have hne1 : (p.foldl addByte (states, AUTO_START)).2 ≠ AUTO_STUCK := by
    rcases hcur1.kind with h | h
    · rw [h]
      simp [AUTO_START, AUTO_STUCK]
    · simp only [AUTO_STUCK]
      omega
  have hext2 : StExt (p.foldl addByte (states, AUTO_START)).1
      ((p.foldl addByte (states, AUTO_START)).1.set
        (p.foldl addByte (states, AUTO_START)).2
        (((p.foldl addByte (states, AUTO_START)).1.getD
          (p.foldl addByte (states, AUTO_START)).2 default).pushEnd k)) := by
    refine ⟨by simp, ?_, ?_⟩
    · intro i b S hS
      by_cases hi : i = (p.foldl addByte (states, AUTO_START)).2
      · subst hi
        rw [getD_set_self' _ _ _ hlt1]
        exact hS
      · rw [getD_set_ne' _ _ _ _ (fun he => hi he.symm)]
        exact hS
    · intro i
      by_cases hi : i = (p.foldl addByte (states, AUTO_START)).2
      · subst hi
        rw [getD_set_self' _ _ _ hlt1]
        exact ⟨[k], rfl⟩
      · rw [getD_set_ne' _ _ _ _ (fun he => hi he.symm)]
        exact ⟨[], by simp⟩
  have hinv2 : BuildInv univ
      ((p.foldl addByte (states, AUTO_START)).1.set
        (p.foldl addByte (states, AUTO_START)).2
        (((p.foldl addByte (states, AUTO_START)).1.getD
          (p.foldl addByte (states, AUTO_START)).2 default).pushEnd k)) := by
    have hmemc : ∀ st ∈ (p.foldl addByte (states, AUTO_START)).1.set
        (p.foldl addByte (states, AUTO_START)).2
        (((p.foldl addByte (states, AUTO_START)).1.getD
          (p.foldl addByte (states, AUTO_START)).2 default).pushEnd k),
        st.transitions = (((p.foldl addByte (states, AUTO_START)).1.getD
          (p.foldl addByte (states, AUTO_START)).2 default)).transitions ∨
        st ∈ (p.foldl addByte (states, AUTO_START)).1 := by
      intro st hst
      rcases List.mem_or_eq_of_mem_set hst with hst | hst
      · exact Or.inr hst
      · exact Or.inl (by rw [hst]; rfl)
    have hcmem : ((p.foldl addByte (states, AUTO_START)).1.getD
        (p.foldl addByte (states, AUTO_START)).2 default) ∈
        (p.foldl addByte (states, AUTO_START)).1 := by
      rw [List.getD_eq_getElem _ _ hlt1]
      exact List.getElem_mem hlt1
    refine ⟨by simpa using hinv1.two_le, ?_, ?_, ?_, ?_, ?_⟩
    · intro st hst b t ht
      rcases hmemc st hst with he | hst
      · rw [he] at ht
        have := hinv1.targets_ok _ hcmem b t ht
        simpa using this
      · have := hinv1.targets_ok _ hst b t ht
        simpa using this
    · intro st hst b
      rcases hmemc st hst with he | hst
      · rw [he]
        exact hinv1.sets_ne _ hcmem b
      · exact hinv1.sets_ne _ hst b
    · intro st hst b
      rcases hmemc st hst with he | hst
      · rw [he]
        exact hinv1.bytes_sub _ hcmem b
      · exact hinv1.bytes_sub _ hst b
    · intro b
      rw [getD_set_ne' _ _ _ _ hne1]
      exact hinv1.stuck_trans b
    · rw [getD_set_ne' _ _ _ _ hne1]
      exact hinv1.stuck_ends
  refine ⟨hinv2, StExt.trans (StExt.trans hext1 hext2) (StExt.refl _), ?_,
    ?_⟩
  · refine ((allEnds_set_pushEnd _ _ k hlt1).trans ?_)
    rw [hends1]
  · refine ⟨(p.foldl addByte (states, AUTO_START)).2,
      walk_pres hext2 p AUTO_START _ hwalk1, ?_⟩
    exact getD_set_pushEnd_mem _ _ k hlt1

/-! ## The whole dictionary fold -/

theorem foldl_addPattern_spec (univ : List Input)
    (l : List (ℕ × List Input)) (hl : ∀ q ∈ l, ∀ b ∈ q.2, b ∈ univ)
    (states : List NFAState) (hinv : BuildInv univ states) :
    BuildInv univ (l.foldl (fun sts q => addPattern sts q.1 q.2) states) ∧
    StExt states (l.foldl (fun sts q => addPattern sts q.1 q.2) states) ∧
    (allEnds (l.foldl (fun sts q => addPattern sts q.1 q.2) states)).Perm
      (l.map Prod.fst ++ allEnds states) ∧
    ∀ q ∈ l, ∃ t,
      walk (l.foldl (fun sts q => addPattern sts q.1 q.2) states) 0 q.2 =
        some t ∧
      q.1 ∈ ((l.foldl (fun sts q => addPattern sts q.1 q.2) states).getD t
        default).pattern_ends := by
  induction l generalizing states with
  | nil =>
      refine ⟨hinv, StExt.refl _, by simp, ?_⟩
      intro q hq
      simp at hq
  | cons q l ih =>
      rcases addPattern_spec univ states q.1 q.2 (hl q (by simp)) hinv with
        ⟨hinv1, hext1, hperm1, t, hwalk1, hmem1⟩
      rcases ih (fun q' hq' => hl q' (by simp [hq'])) _ hinv1 with
        ⟨hinv2, hext2, hperm2, hall2⟩
      rw [List.foldl_cons]
      refine ⟨hinv2, StExt.trans hext1 hext2, ?_, ?_⟩
      · refine hperm2.trans ?_
        refine ((hperm1.append_left (l.map Prod.fst)).trans ?_)
        refine (List.perm_middle).trans ?_
        simp
      · intro q' hq'
        rcases List.mem_cons.mp hq' with rfl | hq'
        · exact ⟨t, walk_pres hext2 _ _ _ hwalk1,
            mem_ends_pres hext2 _ _ hmem1⟩
        · exact hall2 q' hq'

theorem from_dictionary_build (dict : List (List Input)) :
    BuildInv dict.flatten (NFA.from_dictionary dict).states ∧
    (allEnds (NFA.from_dictionary dict).states).Perm
      (List.range dict.length) ∧
    ∀ i, i < dict.length → ∃ t,
      walk (NFA.from_dictionary dict).states 0 (dict.getD i []) = some t ∧
      i ∈ ((NFA.from_dictionary dict).states.getD t
        default).pattern_ends := by
  have hbase : BuildInv dict.flatten [NFAState.new, NFAState.new] := by
    refine ⟨by simp, ?_, ?_, ?_, ?_, ?_⟩
    · intro st hst b t ht
      rcases List.mem_pair.mp hst with rfl | rfl <;>
        simp [NFAState.new] at ht
    · intro st hst b
      rcases List.mem_pair.mp hst with rfl | rfl <;> simp [NFAState.new]
    · intro st hst b
      rcases List.mem_pair.mp hst with rfl | rfl <;> simp [NFAState.new]
    · intro b
      rfl
    · rfl
  have hl : ∀ q ∈ dict.enum, ∀ b ∈ q.2, b ∈ dict.flatten := by
    intro q hq b hb
    have hq2 : q.2 ∈ dict := by
      have := List.mem_enum_iff_getElem?.mp hq
      exact List.getElem?_mem this
    exact List.mem_flatten.mpr ⟨q.2, hq2, hb⟩
  rcases foldl_addPattern_spec dict.flatten dict.enum hl
    [NFAState.new, NFAState.new] hbase with ⟨hinv, hext, hperm, hall⟩
  have hstates : (NFA.from_dictionary dict).states =
      dict.enum.foldl (fun sts q => addPattern sts q.1 q.2)
        [NFAState.new, NFAState.new] := rfl
  refine ⟨hstates ▸ hinv, ?_, ?_⟩
  · rw [hstates]
    refine hperm.trans ?_
    rw [List.enum_map_fst]
    simp [allEnds, NFAState.new]
  · intro i hi
    have hq : (i, dict.getD i []) ∈ dict.enum := by
      rw [List.mem_enum_iff_getElem?]
      rw [List.getElem?_eq_getElem hi, List.getD_eq_getElem _ _ hi]
    rcases hall (i, dict.getD i []) hq with ⟨t, hwalk, hmem⟩
    exact ⟨t, hstates ▸ hwalk, hstates ▸ hmem⟩

/-- The dictionary NFA satisfies the global invariant. -/
theorem from_dictionary_inv (dict : List (List Input)) :
    NFAInv (NFA.from_dictionary dict) ∧
    TransNonempty (NFA.from_dictionary dict) := by
  rcases from_dictionary_build dict with ⟨hb, hperm, _⟩
  have halpha : (NFA.from_dictionary dict).alphabet =
      extendSorted [] dict.flatten := rfl
  constructor
  · refine ⟨hb.two_le, ?_, ?_, ?_, hb.stuck_trans, hb.stuck_ends, ?_⟩
    · rw [halpha]
      exact (sorted_extendSorted [] dict.flatten (by simp)).nodup
    · intro st hst b hbne
      rw [halpha]
      exact (mem_extendSorted b [] dict.flatten).mpr
        (Or.inr (hb.bytes_sub st hst b hbne))
    · intro st hst b t ht
      exact (hb.targets_ok st hst b t ht).2
    · exact (List.Perm.nodup_iff hperm).mpr (List.nodup_range dict.length)
  · intro st hst b
    exact hb.sets_ne st hst b

/-! ## C4 (NFA part): each pattern is found by `apply` on itself -/

theorem walk_mem_nrun (nfa : NFA) (p : List Input) (cur t : ℕ)
    (hw : walk nfa.states cur p = some t) :
    ∀ S, cur ∈ S → t ∈ nrun nfa S p := by
  induction p generalizing cur with
  | nil =>
      intro S hS
      rw [walk] at hw
      cases hw
      exact hS
  | cons b rest ih =>
      intro S hS
      rw [walk] at hw
      cases hf : (nfa.states.getD cur default).firstTarget b with
      | none => rw [hf] at hw; simp at hw
      | some s =>
          rw [hf] at hw
          have hsmem : s ∈ targets nfa cur b := by
            rw [NFAState.firstTarget] at hf
            cases hts : (nfa.states.getD cur default).transitions b with
            | none => rw [hts] at hf; simp at hf
            | some S' =>
                rw [hts] at hf
                rw [targets, hts]
                simpa using List.mem_of_mem_head? hf
          rw [nrun, List.foldl_cons]
          exact ih s hw (nstep nfa S b)
            ((mem_nstep nfa S b s).mpr ⟨cur, hS, hsmem⟩)

theorem mem_apply_of_walk (nfa : NFA) (p : List Input) (t i : ℕ)
    (hw : walk nfa.states AUTO_START p = some t)
    (hm : i ∈ (nfa.states.getD t default).pattern_ends) :
    i ∈ nfa.apply p := by
  rw [NFA.apply, List.mem_flatMap]
  exact ⟨t, walk_mem_nrun nfa p AUTO_START t hw [AUTO_START] (by simp), hm⟩

theorem from_dictionary_self_apply (dict : List (List Input)) (i : ℕ)
    (hi : i < dict.length) :
    i ∈ (NFA.from_dictionary dict).apply (dict.getD i []) := by
  rcases from_dictionary_build dict with ⟨_, _, hall⟩
  rcases hall i hi with ⟨t, hwalk, hmem⟩
  exact mem_apply_of_walk _ _ t i hwalk hmem

/-! ## The powerset construction: the states map -/

theorem lookupS_cons_of_ne (m : List (List ℕ × ℕ)) (k k' : List ℕ) (v' : ℕ)
    (h : k ≠ k') : lookupS ((k', v') :: m) k = lookupS m k := by
  rw [lookupS, lookupS, List.find?_cons_of_neg]
  simp only [decide_eq_true_eq]
  exact fun he => h he.symm

theorem lookupS_cons_self (m : List (List ℕ × ℕ)) (k : List ℕ) (v : ℕ) :
    lookupS ((k, v) :: m) k = some v := by
  rw [lookupS, List.find?_cons_of_pos] <;> simp

theorem lookupS_mem (m : List (List ℕ × ℕ)) (k : List ℕ) (v : ℕ)
    (h : lookupS m k = some v) : (k, v) ∈ m := by
  rw [lookupS] at h
  rcases Option.map_eq_some'.mp h with ⟨q, hq, hv⟩
  have hk := List.find?_some hq
  simp only [decide_eq_true_eq] at hk
  have := List.mem_of_find?_eq_some hq
  rw [show q = (k, v) from Prod.ext hk hv] at this
  exact this

theorem lookupS_none_iff (m : List (List ℕ × ℕ)) (k : List ℕ) :
    lookupS m k = none ↔ ∀ q ∈ m, q.1 ≠ k := by
  rw [lookupS, Option.map_eq_none', List.find?_eq_none]
  simp

theorem mem_lookupS (m : List (List ℕ × ℕ)) (k : List ℕ) (v : ℕ)
    (hnodup : (m.map Prod.fst).Nodup) (h : (k, v) ∈ m) :
    lookupS m k = some v := by
  induction m with
  | nil => simp at h
  | cons q m ih =>
      rcases List.mem_cons.mp h with he | h
      · rw [← he]
        exact lookupS_cons_self m k v
      · have hkm : k ∈ m.map Prod.fst := List.mem_map.mpr ⟨(k, v), h, rfl⟩
        have hne : k ≠ q.1 := by
          intro hke
          rw [hke] at hkm
          exact (List.nodup_cons.mp hnodup).1 hkm
        rw [show (q : List ℕ × ℕ) = (q.1, q.2) from rfl,
          lookupS_cons_of_ne _ _ _ _ hne]
        exact ih (List.nodup_cons.mp hnodup).2 h

theorem lookupS_grow (m : List (List ℕ × ℕ)) (knew : List ℕ) (vnew : ℕ)
    (hfresh : lookupS m knew = none) (k : List ℕ) (v : ℕ)
    (h : lookupS m k = some v) :
    lookupS ((knew, vnew) :: m) k = some v := by
  have hne : k ≠ knew := by
    intro he
    rw [he, hfresh] at h
    simp at h
  rw [lookupS_cons_of_ne _ _ _ _ hne]
  exact h

/-- Size bound: distinct canonical subsets of `range L` number at most
`2 ^ L`. -/
theorem keys_card_le (K : List (List ℕ)) (L : ℕ) (hnodup : K.Nodup)
    (hok : ∀ k ∈ K, k.Sorted (· < ·) ∧ ∀ t ∈ k, t < L) :
    K.length ≤ 2 ^ L := by
  have hinj : ∀ k ∈ K, ∀ k' ∈ K, k.toFinset = k'.toFinset → k = k' := by
    intro k hk k' hk' he
    refine sorted_eq_of_mem_iff (hok k hk).1 (hok k' hk').1 ?_
    intro a
    rw [← List.mem_toFinset, ← List.mem_toFinset, he]
  have hmnodup : (K.map List.toFinset).Nodup := hnodup.map_on hinj
  have hsub : ∀ F ∈ K.map List.toFinset, F ∈ (Finset.range L).powerset := by
    intro F hF
    rcases List.mem_map.mp hF with ⟨k, hk, rfl⟩
    rw [Finset.mem_powerset]
    intro a ha
    rw [List.mem_toFinset] at ha
    exact Finset.mem_range.mpr ((hok k hk).2 a ha)
  have h1 : K.length = (K.map List.toFinset).length := by simp
  rw [h1, ← List.toFinset_card_of_nodup hmnodup]
  calc (K.map List.toFinset).toFinset.card
      ≤ (Finset.range L).powerset.card := by
        refine Finset.card_le_card ?_
        intro F hF
        exact hsub F (List.mem_toFinset.mp hF)
    _ = 2 ^ L := by rw [Finset.card_powerset, Finset.card_range]

/-! ## The canonical united pattern-ends of a subset -/

/-- The canonical sorted set of pattern numbers ending in some state of
`k`. -/
def endsOfSet (nfa : NFA) (k : List ℕ) : List ℕ :=
  extendSorted []
    (k.flatMap (fun s => (nfa.states.getD s default).pattern_ends))

theorem mem_endsOfSet (nfa : NFA) (k : List ℕ) (i : ℕ) :
    i ∈ endsOfSet nfa k ↔
      ∃ s ∈ k, i ∈ (nfa.states.getD s default).pattern_ends := by
  rw [endsOfSet, mem_extendSorted]
  simp [List.mem_flatMap]

theorem sorted_endsOfSet (nfa : NFA) (k : List ℕ) :
    (endsOfSet nfa k).Sorted (· < ·) :=
  sorted_extendSorted _ _ (by simp)

theorem finUnion_eq_endsOfSet (nfa : NFA) (S : List ℕ) (b : Input) :
    finUnion nfa S b = endsOfSet nfa (nstep nfa S b) := by
  refine sorted_eq_of_mem_iff (sorted_finUnion nfa S b)
    (sorted_endsOfSet nfa _) ?_
  intro i
  rw [mem_finUnion, mem_endsOfSet]

/-! ## The powerset loop invariant -/

/-- The transition of DNFA state `n` on byte `b` is installed and points at
the state the map assigns to the successor subset of `k`. -/
def InstalledByte (nfa : NFA) (σ : PSState) (k : List ℕ) (n : ℕ)
    (b : Input) : Prop :=
  ∃ m, lookupS σ.smap (nstep nfa k b) = some m ∧
    (σ.dstates.getD n default).transitions b = some [m]

/-- All alphabet transitions of DNFA state `n` (representing subset `k`)
are installed. -/
def Installed (nfa : NFA) (σ : PSState) (k : List ℕ) (n : ℕ) : Prop :=
  ∀ b ∈ nfa.alphabet, InstalledByte nfa σ k n b

/-- The worklist-independent part of the powerset loop invariant. -/
structure PSCore (nfa : NFA) (σ : PSState) : Prop where
  keys_nodup : (σ.smap.map Prod.fst).Nodup
  keys_ok : ∀ q ∈ σ.smap, q.1.Sorted (· < ·) ∧
    ∀ t ∈ q.1, t < nfa.states.length
  seed_empty : lookupS σ.smap [] = some AUTO_STUCK
  seed_stuck : lookupS σ.smap [AUTO_STUCK] = some AUTO_STUCK
  seed_start : lookupS σ.smap [AUTO_START] = some AUTO_START
  two_le : 2 ≤ σ.dstates.length
  vals_lt : ∀ q ∈ σ.smap, q.2 < σ.dstates.length
  val_zero : ∀ q ∈ σ.smap, q.2 = AUTO_START → q.1 = [AUTO_START]
  val_one : ∀ q ∈ σ.smap, q.2 = AUTO_STUCK → q.1 = [] ∨ q.1 = [AUTO_STUCK]
  vals_inj : ∀ q ∈ σ.smap, ∀ q' ∈ σ.smap, q.2 = q'.2 → q.2 ≠ AUTO_STUCK →
    q.1 = q'.1
  stuck_st : σ.dstates.getD AUTO_STUCK default = NFAState.new
  ends_start : (σ.dstates.getD AUTO_START default).pattern_ends =
    (nfa.states.getD AUTO_START default).pattern_ends
  ends_ok : ∀ q ∈ σ.smap, 2 ≤ q.2 →
    (σ.dstates.getD q.2 default).pattern_ends = endsOfSet nfa q.1
  shape : ∀ st ∈ σ.dstates, ∀ b S, st.transitions b = some S →
    (∃ m, S = [m] ∧ m < σ.dstates.length) ∧ b ∈ nfa.alphabet

/-- The invariant of the worklist loop of `powerset_construction`. -/
structure PSInv (nfa : NFA) (σ : PSState) : Prop where
  core : PSCore nfa σ
  wl_mem : ∀ it ∈ σ.wl, it ∈ σ.smap
  wl_ne_stuck : ∀ it ∈ σ.wl, it.2 ≠ AUTO_STUCK
  wl_nodup : (σ.wl.map Prod.snd).Nodup
  wl_virgin : ∀ it ∈ σ.wl, ∀ b,
    (σ.dstates.getD it.2 default).transitions b = none
  done : ∀ q ∈ σ.smap, q.2 ≠ AUTO_STUCK → q ∉ σ.wl →
    Installed nfa σ q.1 q.2

/-- The invariant holding while the popped worklist item `(k, n)` is having
its transitions installed. -/
structure PSMid (nfa : NFA) (k : List ℕ) (n : ℕ) (σ : PSState) : Prop where
  core : PSCore nfa σ
  wl_mem : ∀ it ∈ σ.wl, it ∈ σ.smap
  wl_ne_stuck : ∀ it ∈ σ.wl, it.2 ≠ AUTO_STUCK
  wl_nodup : (σ.wl.map Prod.snd).Nodup
  wl_virgin : ∀ it ∈ σ.wl, ∀ b,
    (σ.dstates.getD it.2 default).transitions b = none
  n_notin_wl : n ∉ σ.wl.map Prod.snd
  n_ne_stuck : n ≠ AUTO_STUCK
  k_mem : (k, n) ∈ σ.smap
  done_ex : ∀ q ∈ σ.smap, q.2 ≠ AUTO_STUCK → q ∉ σ.wl → q.2 ≠ n →
    Installed nfa σ q.1 q.2

/-- The termination measure of the worklist loop. -/
def psMeasure (nfa : NFA) (σ : PSState) : ℕ :=
  2 * (2 ^ nfa.states.length - σ.smap.length) + σ.wl.length

theorem targets_lt_of_inv (nfa : NFA) (hN : NFAInv nfa) (s : ℕ)
    (b : Input) : ∀ t ∈ targets nfa s b, t < nfa.states.length := by
  intro t ht
  by_cases hs : s < nfa.states.length
  · refine hN.targets_lt (nfa.states.getD s default) ?_ b t ht
    rw [List.getD_eq_getElem _ _ hs]
    exact List.getElem_mem hs
  · rw [targets, getD_past _ _ (by omega)] at ht
    simp [default] at ht

theorem nstep_lt_of_inv (nfa : NFA) (hN : NFAInv nfa) (k : List ℕ)
    (b : Input) : ∀ t ∈ nstep nfa k b, t < nfa.states.length := by
  intro t ht
  rcases (mem_nstep nfa k b t).mp ht with ⟨s, _, hts⟩
  exact targets_lt_of_inv nfa hN s b t hts

theorem targets_empty_of_not_alpha (nfa : NFA) (hN : NFAInv nfa) (s : ℕ)
    (b : Input) (hb : b ∉ nfa.alphabet) : targets nfa s b = [] := by
  by_cases hs : s < nfa.states.length
  · rw [targets]
    cases ht : (nfa.states.getD s default).transitions b with
    | none => rfl
    | some S =>
        exfalso
        refine hb (hN.trans_alpha (nfa.states.getD s default) ?_ b
          (by rw [ht]; simp))
        rw [List.getD_eq_getElem _ _ hs]
        exact List.getElem_mem hs
  · rw [targets, getD_past _ _ (by omega)]
    rfl

theorem nstep_empty_of_not_alpha (nfa : NFA) (hN : NFAInv nfa) (k : List ℕ)
    (b : Input) (hb : b ∉ nfa.alphabet) : nstep nfa k b = [] := by
  rcases hS : nstep nfa k b with _ | ⟨t, ts⟩
  · rfl
  · exfalso
    have : t ∈ nstep nfa k b := by rw [hS]; simp
    rcases (mem_nstep nfa k b t).mp this with ⟨s, _, hts⟩
    rw [targets_empty_of_not_alpha nfa hN s b hb] at hts
    simp at hts

/-! ## Effects of `install` -/

theorem install_smap (σ : PSState) (cur : ℕ) (b : Input) (n : ℕ) :
    (σ.install cur b n).smap = σ.smap := rfl

theorem install_wl (σ : PSState) (cur : ℕ) (b : Input) (n : ℕ) :
    (σ.install cur b n).wl = σ.wl := rfl

theorem install_len (σ : PSState) (cur : ℕ) (b : Input) (n : ℕ) :
    (σ.install cur b n).dstates.length = σ.dstates.length := by
  rw [PSState.install]
  simp

theorem install_getD_ne (σ : PSState) (cur : ℕ) (b : Input) (n j : ℕ)
    (hj : j ≠ cur) :
    (σ.install cur b n).dstates.getD j default = σ.dstates.getD j default := by
  rw [PSState.install]
  exact getD_set_ne' _ _ _ _ (fun he => hj he.symm)

theorem install_getD_self (σ : PSState) (cur : ℕ) (b : Input) (n : ℕ)
    (hc : cur < σ.dstates.length) :
    (σ.install cur b n).dstates.getD cur default =
      (σ.dstates.getD cur default).insertTransition b n := by
  rw [PSState.install]
  exact getD_set_self' _ _ _ hc

theorem insertTransition_trans_eq (st : NFAState) (b : Input) (t : ℕ)
    (b' : Input) :
    (st.insertTransition b t).transitions b' =
      if b' = b then some (insertSorted t ((st.transitions b).getD []))
      else st.transitions b' := rfl

theorem install_ends (σ : PSState) (cur : ℕ) (b : Input) (n j : ℕ) :
    ((σ.install cur b n).dstates.getD j default).pattern_ends =
      (σ.dstates.getD j default).pattern_ends := by
  by_cases hj : j = cur
  · subst hj
    by_cases hc : j < σ.dstates.length
    · rw [install_getD_self σ j b n hc]
      rfl
    · rw [PSState.install, getD_past _ _ (by simpa using Nat.le_of_not_lt hc),
        getD_past _ _ (Nat.le_of_not_lt hc)]
  · rw [install_getD_ne σ cur b n j hj]

/-! ## `psByte`: the install half -/

theorem psInstall_spec (nfa : NFA) (k : List ℕ) (n : ℕ) (b : Input)
    (hb : b ∈ nfa.alphabet) (σ : PSState) (hmid : PSMid nfa k n σ)
    (m : ℕ) (hm : lookupS σ.smap (nstep nfa k b) = some m)
    (hvb : (σ.dstates.getD n default).transitions b = none) :
    PSMid nfa k n (σ.install n b m) ∧
    InstalledByte nfa (σ.install n b m) k n b := by
  have hnlt : n < σ.dstates.length := hmid.core.vals_lt (k, n) hmid.k_mem
  have hmlt : m < σ.dstates.length :=
    hmid.core.vals_lt _ (lookupS_mem _ _ _ hm)
  have htr : ∀ b',
      ((σ.install n b m).dstates.getD n default).transitions b' =
      if b' = b then some [m]
      else (σ.dstates.getD n default).transitions b' := by
    intro b'
    rw [install_getD_self σ n b m hnlt, insertTransition_trans_eq]
    by_cases hbe : b' = b
    · rw [if_pos hbe, if_pos hbe, hvb]
      rfl
    · rw [if_neg hbe, if_neg hbe]
  have hcore : PSCore nfa (σ.install n b m) := by
    refine ⟨hmid.core.keys_nodup, hmid.core.keys_ok, hmid.core.seed_empty,
      hmid.core.seed_stuck, hmid.core.seed_start, ?_, ?_, hmid.core.val_zero,
      hmid.core.val_one, hmid.core.vals_inj, ?_, ?_, ?_, ?_⟩
    · rw [install_len]
      exact hmid.core.two_le
    · intro q hq
      rw [install_len]
      exact hmid.core.vals_lt q hq
    · rw [install_getD_ne σ n b m AUTO_STUCK
        (fun he => hmid.n_ne_stuck he.symm)]
      exact hmid.core.stuck_st
    · rw [install_ends]
      exact hmid.core.ends_start
    · intro q hq h2
      rw [install_ends]
      exact hmid.core.ends_ok q hq h2
    · intro st hst b' S hS
      have hst' : st ∈ σ.dstates ∨
          st = (σ.dstates.getD n default).insertTransition b m := by
        rw [PSState.install] at hst
        rcases List.mem_or_eq_of_mem_set hst with h | h
        · exact Or.inl h
        · exact Or.inr h
      rcases hst' with hst' | rfl
      · rcases hmid.core.shape st hst' b' S hS with ⟨⟨m', he, hlt⟩, halpha⟩
        refine ⟨⟨m', he, ?_⟩, halpha⟩
        rw [install_len]
        exact hlt
      · rw [insertTransition_trans_eq] at hS
        by_cases hbe : b' = b
        · rw [if_pos hbe, hvb] at hS
          refine ⟨⟨m, ?_, ?_⟩, hbe ▸ hb⟩
          · cases hS
            rfl
          · rw [install_len]
            exact hmlt
        · rw [if_neg hbe] at hS
          have hmem : σ.dstates.getD n default ∈ σ.dstates := by
            rw [List.getD_eq_getElem _ _ hnlt]
            exact List.getElem_mem hnlt
          rcases hmid.core.shape _ hmem b' S hS with ⟨⟨m', he, hlt⟩, halpha⟩
          refine ⟨⟨m', he, ?_⟩, halpha⟩
          rw [install_len]
          exact hlt
  refine ⟨⟨hcore, hmid.wl_mem, hmid.wl_ne_stuck, hmid.wl_nodup, ?_,
    hmid.n_notin_wl, hmid.n_ne_stuck, hmid.k_mem, ?_⟩, ?_⟩
  · intro it hit b'
    have hne : it.2 ≠ n := by
      intro he
      exact hmid.n_notin_wl (he ▸ List.mem_map_of_mem Prod.snd hit)
    rw [install_getD_ne σ n b m it.2 hne]
    exact hmid.wl_virgin it hit b'
  · intro q hq h1 h2 h3 b'' hb''
    rcases hmid.done_ex q hq h1 h2 h3 b'' hb'' with ⟨m', hl, ht⟩
    refine ⟨m', hl, ?_⟩
    rw [install_getD_ne σ n b m q.2 h3]
    exact ht
  · exact ⟨m, hm, by rw [htr b, if_pos rfl]⟩

/-! ## `psByte`: the fresh-allocation half -/

theorem psFresh_spec (nfa : NFA) (hN : NFAInv nfa) (k : List ℕ) (n : ℕ)
    (b : Input) (σ : PSState) (hmid : PSMid nfa k n σ)
    (hlk : lookupS σ.smap (nstep nfa k b) = none) :
    PSMid nfa k n
      ⟨(nstep nfa k b, σ.dstates.length) :: σ.smap,
       σ.dstates ++ [⟨fun _ => none, finUnion nfa k b⟩],
       (nstep nfa k b, σ.dstates.length) :: σ.wl⟩ ∧
    lookupS ((nstep nfa k b, σ.dstates.length) :: σ.smap) (nstep nfa k b) =
      some σ.dstates.length := by
  have h2 := hmid.core.two_le
  have hnlt : n < σ.dstates.length := hmid.core.vals_lt (k, n) hmid.k_mem
  have hfresh_keys : ∀ q ∈ σ.smap, q.1 ≠ nstep nfa k b :=
    (lookupS_none_iff σ.smap (nstep nfa k b)).mp hlk
  have hgetD_app : ∀ j, j < σ.dstates.length →
      (σ.dstates ++ [(⟨fun _ => none, finUnion nfa k b⟩ : NFAState)]).getD j
        default = σ.dstates.getD j default := by
    intro j hj
    exact getD_append_left' _ _ _ hj
  have hgetD_new : (σ.dstates ++
      [(⟨fun _ => none, finUnion nfa k b⟩ : NFAState)]).getD
        σ.dstates.length default =
      ⟨fun _ => none, finUnion nfa k b⟩ :=
    getD_append_at _ _
  have hlook_grow : ∀ k' v, lookupS σ.smap k' = some v →
      lookupS ((nstep nfa k b, σ.dstates.length) :: σ.smap) k' = some v :=
    fun k' v h => lookupS_grow σ.smap _ _ hlk k' v h
  have hcore : PSCore nfa
      ⟨(nstep nfa k b, σ.dstates.length) :: σ.smap,
       σ.dstates ++ [⟨fun _ => none, finUnion nfa k b⟩],
       (nstep nfa k b, σ.dstates.length) :: σ.wl⟩ := by
    refine ⟨?_, ?_, ?_, ?_, ?_, ?_, ?_, ?_, ?_, ?_, ?_, ?_, ?_, ?_⟩
    · rw [List.map_cons]
      refine List.nodup_cons.mpr ⟨?_, hmid.core.keys_nodup⟩
      intro hmem
      rcases List.mem_map.mp hmem with ⟨q, hq, he⟩
      exact hfresh_keys q hq he
    · intro q hq
      rcases List.mem_cons.mp hq with he | hq
      · rw [he]
        exact ⟨sorted_nstep nfa k b, nstep_lt_of_inv nfa hN k b⟩
      · exact hmid.core.keys_ok q hq
    · exact hlook_grow _ _ hmid.core.seed_empty
    · exact hlook_grow _ _ hmid.core.seed_stuck
    · exact hlook_grow _ _ hmid.core.seed_start
    · simp only [List.length_append, List.length_cons, List.length_nil]
      omega
    · intro q hq
      simp only [List.length_append, List.length_cons, List.length_nil]
      rcases List.mem_cons.mp hq with he | hq
      · rw [he]
        omega
      · have := hmid.core.vals_lt q hq
        omega
    · intro q hq he
      rcases List.mem_cons.mp hq with h | hq
      · exfalso
        rw [h] at he
        simp only [AUTO_START] at he
        omega
      · exact hmid.core.val_zero q hq he
    · intro q hq he
      rcases List.mem_cons.mp hq with h | hq
      · exfalso
        rw [h] at he
        simp only [AUTO_STUCK] at he
        omega
      · exact hmid.core.val_one q hq he
    · intro q hq q' hq' he hne
      rcases List.mem_cons.mp hq with h | hq <;>
        rcases List.mem_cons.mp hq' with h' | hq'
      · rw [h, h']
      · exfalso
        rw [h] at he
        have := hmid.core.vals_lt q' hq'
        simp only at he
        omega
      · exfalso
        rw [h'] at he
        have := hmid.core.vals_lt q hq
        simp only at he
        omega
      · exact hmid.core.vals_inj q hq q' hq' he hne
    · rw [hgetD_app AUTO_STUCK (by simp only [AUTO_STUCK]; omega)]
      exact hmid.core.stuck_st
    · rw [hgetD_app AUTO_START (by simp only [AUTO_START]; omega)]
      exact hmid.core.ends_start
    · intro q hq h2'
      rcases List.mem_cons.mp hq with he | hq
      · rw [he]
        rw [he] at h2'
        simp only at h2' ⊢
        rw [hgetD_new]
        exact finUnion_eq_endsOfSet nfa k b
      · have := hmid.core.vals_lt q hq
        rw [hgetD_app q.2 this]
        exact hmid.core.ends_ok q hq h2'
    · intro st hst b' S hS
      simp only [List.length_append, List.length_cons, List.length_nil]
      rcases List.mem_append.mp hst with hst | hst
      · rcases hmid.core.shape st hst b' S hS with ⟨⟨m', he, hlt⟩, halpha⟩
        exact ⟨⟨m', he, by omega⟩, halpha⟩
      · rw [List.mem_singleton] at hst
        rw [hst] at hS
        simp at hS
  refine ⟨⟨hcore, ?_, ?_, ?_, ?_, ?_, hmid.n_ne_stuck, ?_, ?_⟩,
    lookupS_cons_self _ _ _⟩
  · intro it hit
    rcases List.mem_cons.mp hit with he | hit
    · rw [he]
      exact List.mem_cons_self _ _
    · exact List.mem_cons_of_mem _ (hmid.wl_mem it hit)
  · intro it hit
    rcases List.mem_cons.mp hit with he | hit
    · rw [he]
      simp only [AUTO_STUCK]
      omega
    · exact hmid.wl_ne_stuck it hit
  · rw [List.map_cons]
    refine List.nodup_cons.mpr ⟨?_, hmid.wl_nodup⟩
    intro hmem
    rcases List.mem_map.mp hmem with ⟨it, hit, he⟩
    have := hmid.core.vals_lt it (hmid.wl_mem it hit)
    simp only at he
    omega
  · intro it hit b'
    rcases List.mem_cons.mp hit with he | hit
    · rw [he]
      simp only
      rw [hgetD_new]
    · have := hmid.core.vals_lt it (hmid.wl_mem it hit)
      simp only
      rw [hgetD_app it.2 this]
      exact hmid.wl_virgin it hit b'
  · intro hmem
    rw [List.map_cons] at hmem
    rcases List.mem_cons.mp hmem with he | hmem
    · simp only at he
      omega
    · exact hmid.n_notin_wl hmem
  · exact List.mem_cons_of_mem _ hmid.k_mem
  · intro q hq h1 h2 h3 b'' hb''
    have hq' : q ∈ σ.smap := by
      rcases List.mem_cons.mp hq with he | hq'
      · exfalso
        refine h2 ?_
        rw [he]
        exact List.mem_cons_self _ _
      · exact hq'
    have h2' : q ∉ σ.wl := fun hmem => h2 (List.mem_cons_of_mem _ hmem)
    rcases hmid.done_ex q hq' h1 h2' h3 b'' hb'' with ⟨m', hl, ht⟩
    refine ⟨m', hlook_grow _ _ hl, ?_⟩
    simp only
    rw [hgetD_app q.2 (hmid.core.vals_lt q hq')]
    exact ht

/-! ## One `psByte` step -/

theorem psByte_spec (nfa : NFA) (hN : NFAInv nfa) (k : List ℕ) (n : ℕ)
    (b : Input) (hb : b ∈ nfa.alphabet) (σ : PSState)
    (hmid : PSMid nfa k n σ)
    (hvb : (σ.dstates.getD n default).transitions b = none) :
    PSMid nfa k n (psByte nfa k n σ b) ∧
    InstalledByte nfa (psByte nfa k n σ b) k n b ∧
    (∀ b', b' ≠ b → ((psByte nfa k n σ b).dstates.getD n
        default).transitions b' =
      (σ.dstates.getD n default).transitions b') ∧
    (∀ k' v, lookupS σ.smap k' = some v →
      lookupS (psByte nfa k n σ b).smap k' = some v) ∧
    (∀ j, j ≠ n → j < σ.dstates.length →
      (psByte nfa k n σ b).dstates.getD j default =
        σ.dstates.getD j default) ∧
    ∃ f, f ≤ 1 ∧
      (psByte nfa k n σ b).smap.length = σ.smap.length + f ∧
      (psByte nfa k n σ b).wl.length = σ.wl.length + f := by
  have hnlt : n < σ.dstates.length := hmid.core.vals_lt (k, n) hmid.k_mem
  rw [psByte]
  cases hlk : lookupS σ.smap (nstep nfa k b) with
  | some m =>
      rcases psInstall_spec nfa k n b hb σ hmid m hlk hvb with ⟨hmid', hib⟩
      refine ⟨hmid', hib, ?_, ?_, ?_, 0, by omega, rfl, rfl⟩
      · intro b' hb'
        rw [install_getD_self σ n b m hnlt, insertTransition_trans_eq,
          if_neg hb']
      · intro k' v h
        exact h
      · intro j hj hjl
        exact install_getD_ne σ n b m j hj
  | none =>
      dsimp only
      rcases psFresh_spec nfa hN k n b σ hmid hlk with ⟨hmid1, hlk1⟩
      have hif : (if σ.dstates.length ≠ AUTO_STUCK then
          (nstep nfa k b, σ.dstates.length) :: σ.wl else σ.wl) =
          (nstep nfa k b, σ.dstates.length) :: σ.wl := by
        rw [if_pos]
        have := hmid.core.two_le
        simp only [AUTO_STUCK]
        omega
      rw [hif]
      have hvb1 : ((⟨(nstep nfa k b, σ.dstates.length) :: σ.smap,
          σ.dstates ++ [⟨fun _ => none, finUnion nfa k b⟩],
          (nstep nfa k b, σ.dstates.length) :: σ.wl⟩ :
          PSState).dstates.getD n default).transitions b = none := by
        simp only
        rw [getD_append_left' _ _ _ hnlt]
        exact hvb
      rcases psInstall_spec nfa k n b hb _ hmid1 σ.dstates.length hlk1
        hvb1 with ⟨hmid', hib⟩
      refine ⟨hmid', hib, ?_, ?_, ?_, 1, by omega, rfl, rfl⟩
      · intro b' hb'
        have hnlt1 : n < (σ.dstates ++
            [(⟨fun _ => none, finUnion nfa k b⟩ : NFAState)]).length := by
          simp only [List.length_append, List.length_cons, List.length_nil]
          omega
        rw [install_getD_self _ n b σ.dstates.length hnlt1,
          insertTransition_trans_eq, if_neg hb']
        simp only
        rw [getD_append_left' _ _ _ hnlt]
      · intro k' v h
        exact lookupS_grow σ.smap _ _ hlk k' v h
      · intro j hj hjl
        rw [install_getD_ne _ n b σ.dstates.length j hj]
        simp only
        rw [getD_append_left' _ _ _ hjl]

/-! ## Installing all bytes of the popped worklist item -/

theorem psFold_spec (nfa : NFA) (hN : NFAInv nfa) (k : List ℕ) (n : ℕ)
    (todo : List Input) (htodo : ∀ b ∈ todo, b ∈ nfa.alphabet)
    (hnodup : todo.Nodup) (σ : PSState) (hmid : PSMid nfa k n σ)
    (hvirgin : ∀ b ∈ todo, (σ.dstates.getD n default).transitions b = none)
    (hdone : ∀ b ∈ nfa.alphabet, b ∉ todo → InstalledByte nfa σ k n b) :
    PSMid nfa k n (todo.foldl (psByte nfa k n) σ) ∧
    (∀ b ∈ nfa.alphabet,
      InstalledByte nfa (todo.foldl (psByte nfa k n) σ) k n b) ∧
    ∃ f, (todo.foldl (psByte nfa k n) σ).smap.length = σ.smap.length + f ∧
      (todo.foldl (psByte nfa k n) σ).wl.length = σ.wl.length + f := by
  induction todo generalizing σ with
  | nil =>
      refine ⟨hmid, ?_, 0, rfl, rfl⟩
      intro b hb
      exact hdone b hb (by simp)
  | cons b rest ih =>
      rcases psByte_spec nfa hN k n b (htodo b (by simp)) σ hmid
        (hvirgin b (by simp)) with
        ⟨hmid1, hib1, hother1, hlook1, hst1, f1, hf1, hsm1, hwl1⟩
      have hbninrest : b ∉ rest := (List.nodup_cons.mp hnodup).1
      have hvirgin1 : ∀ b' ∈ rest,
          ((psByte nfa k n σ b).dstates.getD n default).transitions b' =
            none := by
        intro b' hb'
        have hne : b' ≠ b := fun he => hbninrest (he ▸ hb')
        rw [hother1 b' hne]
        exact hvirgin b' (by simp [hb'])
      have hdone1 : ∀ b' ∈ nfa.alphabet, b' ∉ rest →
          InstalledByte nfa (psByte nfa k n σ b) k n b' := by
        intro b' hb' hbr
        by_cases hbe : b' = b
        · exact hbe ▸ hib1
        · have hnotin : b' ∉ b :: rest := by
            intro hmem
            rcases List.mem_cons.mp hmem with h | h
            · exact hbe h
            · exact hbr h
          rcases hdone b' hb' hnotin with ⟨m, hl, ht⟩
          exact ⟨m, hlook1 _ _ hl, by rw [hother1 b' hbe]; exact ht⟩
      rw [List.foldl_cons]
      rcases ih (fun b' hb' => htodo b' (by simp [hb']))
        (List.nodup_cons.mp hnodup).2 _ hmid1 hvirgin1 hdone1 with
        ⟨hmid2, hinst2, f2, hsm2, hwl2⟩
      exact ⟨hmid2, hinst2, f1 + f2, by omega, by omega⟩

theorem PSCore.wl_irrel (nfa : NFA) (m : List (List ℕ × ℕ))
    (d : List NFAState) (w w' : List (List ℕ × ℕ))
    (h : PSCore nfa ⟨m, d, w⟩) : PSCore nfa ⟨m, d, w'⟩ :=
  ⟨h.keys_nodup, h.keys_ok, h.seed_empty, h.seed_stuck, h.seed_start,
   h.two_le, h.vals_lt, h.val_zero, h.val_one, h.vals_inj, h.stuck_st,
   h.ends_start, h.ends_ok, h.shape⟩

/-! ## One worklist iteration -/

theorem psIter_spec (nfa : NFA) (hN : NFAInv nfa) (σ : PSState)
    (hinv : PSInv nfa σ) (k : List ℕ) (n : ℕ)
    (rest : List (List ℕ × ℕ)) (hwl : σ.wl = (k, n) :: rest) :
    PSInv nfa (nfa.alphabet.foldl (psByte nfa k n) { σ with wl := rest }) ∧
    psMeasure nfa
      (nfa.alphabet.foldl (psByte nfa k n) { σ with wl := rest }) <
      psMeasure nfa σ := by
  obtain ⟨ms, ds, wl⟩ := σ
  simp only at hwl
  subst hwl
  dsimp only
  have hkmem : (k, n) ∈ ms := hinv.wl_mem (k, n) (by simp)
  have hmid : PSMid nfa k n ⟨ms, ds, rest⟩ := by
    refine ⟨PSCore.wl_irrel nfa ms ds _ rest hinv.core, ?_, ?_, ?_, ?_, ?_,
      ?_, hkmem, ?_⟩
    · intro it hit
      exact hinv.wl_mem it (by simp [hit])
    · intro it hit
      exact hinv.wl_ne_stuck it (by simp [hit])
    · exact (List.nodup_cons.mp (by simpa using hinv.wl_nodup)).2
    · intro it hit b
      exact hinv.wl_virgin it (by simp [hit]) b
    · exact (List.nodup_cons.mp (by simpa using hinv.wl_nodup)).1
    · exact hinv.wl_ne_stuck (k, n) (by simp)
    · intro q hq h1 h2 h3 b hb
      have hq_notin : q ∉ (k, n) :: rest := by
        intro hmem
        rcases List.mem_cons.mp hmem with he | hmem
        · exact h3 (by rw [he])
        · exact h2 hmem
      exact hinv.done q hq h1 hq_notin b hb
  have hvirgin : ∀ b ∈ nfa.alphabet,
      (((⟨ms, ds, rest⟩ : PSState)).dstates.getD n default).transitions b =
        none := by
    intro b _
    exact hinv.wl_virgin (k, n) (by simp) b
  rcases psFold_spec nfa hN k n nfa.alphabet (fun b hb => hb)
    hN.alpha_nodup ⟨ms, ds, rest⟩ hmid hvirgin
    (fun b hb hnb => absurd hb hnb) with ⟨hmid', hinst', f, hsm', hwl'⟩
  constructor
  · refine ⟨hmid'.core, hmid'.wl_mem, hmid'.wl_ne_stuck, hmid'.wl_nodup,
      hmid'.wl_virgin, ?_⟩
    intro q hq h1 h2
    by_cases h3 : q.2 = n
    · have hkeq : q.1 = k :=
        hmid'.core.vals_inj q hq (k, n) hmid'.k_mem (by rw [h3]) h1
      have hqe : q = (k, n) := Prod.ext hkeq h3
      rw [hqe]
      exact hinst'
    · exact hmid'.done_ex q hq h1 h2 h3
  · have hbound : (nfa.alphabet.foldl (psByte nfa k n)
        ⟨ms, ds, rest⟩).smap.length ≤ 2 ^ nfa.states.length := by
      have hok : ∀ kk ∈ (nfa.alphabet.foldl (psByte nfa k n)
          ⟨ms, ds, rest⟩).smap.map Prod.fst,
          kk.Sorted (· < ·) ∧ ∀ t ∈ kk, t < nfa.states.length := by
        intro kk hkk
        rcases List.mem_map.mp hkk with ⟨q, hq, rfl⟩
        exact hmid'.core.keys_ok q hq
      have h := keys_card_le _ _ hmid'.core.keys_nodup hok
      simpa using h
    dsimp only at hsm' hwl'
    rw [psMeasure, psMeasure]
    dsimp only
    rw [hsm', hwl']
    simp only [List.length_cons]
    omega

/-! ## The fueled loop -/

theorem psLoop_post (nfa : NFA) (hN : NFAInv nfa) :
    ∀ fuel σ, PSInv nfa σ → psMeasure nfa σ < fuel →
      PSInv nfa (psLoop nfa fuel σ) ∧ (psLoop nfa fuel σ).wl = [] := by
  intro fuel
  induction fuel with
  | zero =>
      intro σ _ h
      omega
  | succ f ih =>
      intro σ hinv hm
      rw [psLoop]
      cases hwl : σ.wl with
      | nil =>
          exact ⟨hinv, hwl⟩
      | cons it rest =>
          obtain ⟨k, n⟩ := it
          rcases psIter_spec nfa hN σ hinv k n rest hwl with ⟨hinv', hlt⟩
          have hm' : psMeasure nfa
              (nfa.alphabet.foldl (psByte nfa k n) { σ with wl := rest }) <
              f := by omega
          exact ih _ hinv' hm'

/-! ## The initial state and the final invariant -/

theorem psInit_inv (nfa : NFA) (hN : NFAInv nfa) : PSInv nfa (psInit nfa) := by
  have h2 := hN.two_le
  refine ⟨⟨?_, ?_, ?_, ?_, ?_, ?_, ?_, ?_, ?_, ?_, ?_, ?_, ?_, ?_⟩,
    ?_, ?_, ?_, ?_, ?_⟩
  · simp only [psInit]
    decide
  · intro q hq
    simp only [psInit, List.mem_cons, List.not_mem_nil, or_false] at hq
    rcases hq with rfl | rfl | rfl <;>
      refine ⟨by simp, ?_⟩ <;>
      intro t ht <;>
      simp only [List.mem_singleton, List.not_mem_nil, AUTO_START,
        AUTO_STUCK] at ht <;>
      omega
  · rfl
  · rfl
  · rfl
  · simp [psInit]
  · intro q hq
    simp only [psInit, List.mem_cons, List.not_mem_nil, or_false] at hq
    rcases hq with rfl | rfl | rfl <;> simp [psInit, AUTO_START, AUTO_STUCK]
  · intro q hq
    simp only [psInit, List.mem_cons, List.not_mem_nil, or_false] at hq
    rcases hq with rfl | rfl | rfl <;>
      simp [AUTO_START, AUTO_STUCK]
  · intro q hq
    simp only [psInit, List.mem_cons, List.not_mem_nil, or_false] at hq
    rcases hq with rfl | rfl | rfl <;>
      simp [AUTO_START, AUTO_STUCK]
  · intro q hq q' hq' he hne
    simp only [psInit, List.mem_cons, List.not_mem_nil, or_false] at hq hq'
    rcases hq with rfl | rfl | rfl <;> rcases hq' with rfl | rfl | rfl <;>
      simp_all [AUTO_START, AUTO_STUCK]
  · rfl
  · rfl
  · intro q hq hge
    simp only [psInit, List.mem_cons, List.not_mem_nil, or_false] at hq
    rcases hq with rfl | rfl | rfl <;>
      simp only [AUTO_START, AUTO_STUCK] at hge <;> omega
  · intro st hst b S hS
    simp only [psInit, List.mem_cons, List.not_mem_nil, or_false] at hst
    rcases hst with rfl | rfl <;> simp_all [NFAState.new]
  · intro it hit
    simp only [psInit, List.mem_cons, List.not_mem_nil, or_false] at hit
    rw [hit]
    simp [psInit]
  · intro it hit
    simp only [psInit, List.mem_cons, List.not_mem_nil, or_false] at hit
    rw [hit]
    simp [AUTO_START, AUTO_STUCK]
  · simp [psInit]
  · intro it hit b
    simp only [psInit, List.mem_cons, List.not_mem_nil, or_false] at hit
    rw [hit]
    rfl
  · intro q hq h1 h2
    simp only [psInit, List.mem_cons, List.not_mem_nil, or_false] at hq
    rcases hq with rfl | rfl | rfl
    · exact absurd (by simp [psInit]) h2
    · exact absurd rfl h1
    · exact absurd rfl h1

theorem psFinal_inv (nfa : NFA) (hN : NFAInv nfa) :
    PSInv nfa (psLoop nfa (psFuel nfa) (psInit nfa)) ∧
    (psLoop nfa (psFuel nfa) (psInit nfa)).wl = [] := by
  have h4 : 4 ≤ 2 ^ nfa.states.length := by
    calc (4 : ℕ) = 2 ^ 2 := by norm_num
      _ ≤ 2 ^ nfa.states.length :=
        Nat.pow_le_pow_right (by omega) hN.two_le
  refine psLoop_post nfa hN (psFuel nfa) (psInit nfa) (psInit_inv nfa hN) ?_
  rw [psMeasure, psFuel]
  simp only [psInit, List.length_cons, List.length_nil]
  omega

/-! ## The finished powerset state -/

/-- The loop state `powerset_construction` finishes with. -/
def psFinal (nfa : NFA) : PSState := psLoop nfa (psFuel nfa) (psInit nfa)

theorem powerset_states (nfa : NFA) :
    (nfa.powerset_construction).states = (psFinal nfa).dstates := rfl

theorem psFinal_core (nfa : NFA) (hN : NFAInv nfa) :
    PSCore nfa (psFinal nfa) :=
  (psFinal_inv nfa hN).1.core

theorem psFinal_installed (nfa : NFA) (hN : NFAInv nfa) (k : List ℕ) (n : ℕ)
    (hmem : (k, n) ∈ (psFinal nfa).smap) (hn : n ≠ AUTO_STUCK) :
    Installed nfa (psFinal nfa) k n := by
  rcases psFinal_inv nfa hN with ⟨hinv, hwl⟩
  have h := hinv.done (k, n) hmem hn (by rw [hwl]; simp)
  exact h

theorem psFinal_trans_shape (nfa : NFA) (hN : NFAInv nfa) (n : ℕ)
    (hn : n < (psFinal nfa).dstates.length) (b : Input) (S : List ℕ)
    (hS : ((psFinal nfa).dstates.getD n default).transitions b = some S) :
    (∃ m, S = [m] ∧ m < (psFinal nfa).dstates.length) ∧ b ∈ nfa.alphabet := by
  refine (psFinal_core nfa hN).shape ((psFinal nfa).dstates.getD n default)
    ?_ b S hS
  rw [List.getD_eq_getElem _ _ hn]
  exact List.getElem_mem hn

/-! ## Basic run lemmas -/

theorem nstep_nil_set (nfa : NFA) (b : Input) : nstep nfa [] b = [] := rfl

theorem nstep_singleton (nfa : NFA) (s : ℕ) (b : Input) :
    nstep nfa [s] b = extendSorted [] (targets nfa s b) := rfl

theorem nrun_nil_set (nfa : NFA) (w : List Input) : nrun nfa [] w = [] := by
  induction w with
  | nil => rfl
  | cons b rest ih => exact ih

theorem nrun_cons (nfa : NFA) (S : List ℕ) (b : Input) (w : List Input) :
    nrun nfa S (b :: w) = nrun nfa (nstep nfa S b) w := rfl

theorem nrun_append_singleton (nfa : NFA) (S : List ℕ) (w : List Input)
    (b : Input) : nrun nfa S (w ++ [b]) = nstep nfa (nrun nfa S w) b := by
  rw [nrun, nrun, List.foldl_append]
  rfl

theorem nstep_stuck (nfa : NFA) (hN : NFAInv nfa) (b : Input) :
    nstep nfa [AUTO_STUCK] b = [] := by
  rw [nstep_singleton, targets, hN.stuck_trans b]
  rfl

theorem psFinal_stuck_step (nfa : NFA) (hN : NFAInv nfa) (b : Input) :
    nstep (nfa.powerset_construction) [AUTO_STUCK] b = [] := by
  rw [nstep_singleton, targets, powerset_states,
    (psFinal_core nfa hN).stuck_st]
  rfl

theorem nrun_lt (nfa : NFA) (hN : NFAInv nfa) (w : List Input) :
    ∀ S, (∀ s ∈ S, s < nfa.states.length) →
      ∀ t ∈ nrun nfa S w, t < nfa.states.length := by
  induction w with
  | nil => exact fun S hS => hS
  | cons b rest ih =>
      intro S _ t ht
      rw [nrun_cons] at ht
      exact ih (nstep nfa S b) (nstep_lt_of_inv nfa hN S b) t ht

theorem nrun_sorted (nfa : NFA) (w : List Input) :
    ∀ S, S.Sorted (· < ·) → (nrun nfa S w).Sorted (· < ·) := by
  induction w with
  | nil => exact fun S hS => hS
  | cons b rest ih =>
      intro S _
      rw [nrun_cons]
      exact ih (nstep nfa S b) (sorted_nstep nfa S b)

/-! ## The NFA–DNFA simulation -/

/-- Either both runs are live — the DNFA sits in the single state the
states-map assigns to the NFA's current subset — or both are dead (empty or
stuck). -/
theorem dnfa_sim (nfa : NFA) (hN : NFAInv nfa) (w : List Input) :
    (∃ n, nrun (nfa.powerset_construction) [AUTO_START] w = [n] ∧
      n ≠ AUTO_STUCK ∧
      lookupS (psFinal nfa).smap (nrun nfa [AUTO_START] w) = some n) ∨
    ((nrun nfa [AUTO_START] w = [] ∨
        nrun nfa [AUTO_START] w = [AUTO_STUCK]) ∧
     (nrun (nfa.powerset_construction) [AUTO_START] w = [] ∨
        nrun (nfa.powerset_construction) [AUTO_START] w = [AUTO_STUCK])) := by
  induction w using List.reverseRecOn with
  | nil =>
      left
      exact ⟨AUTO_START, rfl, by simp [AUTO_START, AUTO_STUCK],
        (psFinal_core nfa hN).seed_start⟩
  | append_singleton w b ih =>
      rw [nrun_append_singleton, nrun_append_singleton]
      rcases ih with ⟨n, hT, hn1, hlook⟩ | ⟨hS, hT⟩
      · rw [hT]
        have hmem := lookupS_mem _ _ _ hlook
        by_cases hb : b ∈ nfa.alphabet
        · rcases psFinal_installed nfa hN _ n hmem hn1 b hb with
            ⟨m, hlookm, htrans⟩
          have hTstep : nstep (nfa.powerset_construction) [n] b = [m] := by
            rw [nstep_singleton, targets, powerset_states, htrans]
            rfl
          by_cases hm1 : m = AUTO_STUCK
          · right
            rw [hTstep, hm1]
            refine ⟨?_, Or.inr rfl⟩
            have hmem' := lookupS_mem _ _ _ hlookm
            rw [hm1] at hmem'
            exact (psFinal_core nfa hN).val_one _ hmem' rfl
          · left
            exact ⟨m, hTstep, hm1, hlookm⟩
        · right
          constructor
          · exact Or.inl (nstep_empty_of_not_alpha nfa hN _ b hb)
          · left
            have hnone : ((psFinal nfa).dstates.getD n default).transitions b
                = none := by
              cases hc : ((psFinal nfa).dstates.getD n
                  default).transitions b with
              | none => rfl
              | some S =>
                  exfalso
                  have hlt : n < (psFinal nfa).dstates.length :=
                    (psFinal_core nfa hN).vals_lt _ hmem
                  exact hb (psFinal_trans_shape nfa hN n hlt b S hc).2
            rw [nstep_singleton, targets, powerset_states, hnone]
            rfl
      · right
        constructor
        · rcases hS with h | h <;> rw [h]
          · exact Or.inl (nstep_nil_set nfa b)
          · exact Or.inl (nstep_stuck nfa hN b)
        · rcases hT with h | h <;> rw [h]
          · exact Or.inl (nstep_nil_set _ b)
          · exact Or.inl (psFinal_stuck_step nfa hN b)

/-! ## Per-state pattern-end lists are pairwise disjoint -/

theorem ends_nodup_at (nfa : NFA) (hN : NFAInv nfa) (i : ℕ)
    (hi : i < nfa.states.length) :
    ((nfa.states.getD i default).pattern_ends).Nodup := by
  have h := (List.nodup_bind.mp hN.ends_nodup).1
  rw [List.getD_eq_getElem _ _ hi]
  exact h _ (List.getElem_mem hi)

theorem ends_disjoint (nfa : NFA) (hN : NFAInv nfa) (i j : ℕ)
    (hi : i < nfa.states.length) (hj : j < nfa.states.length) (hij : i ≠ j)
    (p : ℕ) (hpi : p ∈ (nfa.states.getD i default).pattern_ends)
    (hpj : p ∈ (nfa.states.getD j default).pattern_ends) : False := by
  have h := (List.nodup_bind.mp hN.ends_nodup).2
  rw [List.pairwise_iff_getElem] at h
  rw [List.getD_eq_getElem _ _ hi] at hpi
  rw [List.getD_eq_getElem _ _ hj] at hpj
  rcases Nat.lt_or_ge i j with hlt | hge
  · exact h i j hi hj hlt hpi hpj
  · have hlt : j < i := by omega
    exact h j i hj hi hlt hpj hpi

theorem flatMap_ends_perm (nfa : NFA) (hN : NFAInv nfa) (S : List ℕ)
    (hsorted : S.Sorted (· < ·)) (hlt : ∀ s ∈ S, s < nfa.states.length) :
    (S.flatMap (fun s => (nfa.states.getD s default).pattern_ends)).Perm
      (endsOfSet nfa S) := by
  have h1 : (S.flatMap
      (fun s => (nfa.states.getD s default).pattern_ends)).Nodup := by
    rw [List.nodup_bind]
    constructor
    · intro s hs
      exact ends_nodup_at nfa hN s (hlt s hs)
    · refine hsorted.imp_of_mem ?_
      intro a b ha hb hab p hpa hpb
      exact ends_disjoint nfa hN a b (hlt a ha) (hlt b hb) (by omega)
        p hpa hpb
  have h2 : (endsOfSet nfa S).Nodup := (sorted_endsOfSet nfa S).nodup
  refine List.perm_of_nodup_nodup_toFinset_eq h1 h2 ?_
  ext p
  simp only [List.mem_toFinset, List.mem_flatMap, mem_endsOfSet]

/-! ## `apply` transports along the simulation -/

/-- The NFA and its powerset construction accept the same pattern numbers on
every input, up to order. -/
theorem nfa_dnfa_apply_perm (nfa : NFA) (hN : NFAInv nfa) (w : List Input) :
    (nfa.apply w).Perm ((nfa.powerset_construction).apply w) := by
  rcases dnfa_sim nfa hN w with ⟨n, hT, hn1, hlook⟩ | ⟨hS, hT⟩
  · have hmem := lookupS_mem _ _ _ hlook
    rw [NFA.apply, NFA.apply, hT]
    simp only [List.flatMap_cons, List.flatMap_nil, List.append_nil]
    by_cases hn0 : n = AUTO_START
    · have hk : nrun nfa [AUTO_START] w = [AUTO_START] := by
        rw [hn0] at hmem
        exact (psFinal_core nfa hN).val_zero _ hmem rfl
      rw [hk, hn0, powerset_states, (psFinal_core nfa hN).ends_start]
      simp
    · have h2n : 2 ≤ n := by
        simp only [AUTO_START] at hn0
        simp only [AUTO_STUCK] at hn1
        omega
      rw [powerset_states, (psFinal_core nfa hN).ends_ok _ hmem h2n]
      refine flatMap_ends_perm nfa hN _ (nrun_sorted nfa w [AUTO_START]
        (by simp)) (nrun_lt nfa hN w [AUTO_START] ?_)
      intro s hs
      rw [List.mem_singleton] at hs
      rw [hs, AUTO_START]
      have := hN.two_le
      omega
  · have hL : nfa.apply w = [] := by
      rw [NFA.apply]
      rcases hS with h | h <;> rw [h]
      · rfl
      · simp only [List.flatMap_cons, List.flatMap_nil, List.append_nil]
        exact hN.stuck_ends
    have hR : (nfa.powerset_construction).apply w = [] := by
      rw [NFA.apply]
      rcases hT with h | h <;> rw [h]
      · rfl
      · simp only [List.flatMap_cons, List.flatMap_nil, List.append_nil]
        rw [powerset_states, (psFinal_core nfa hN).stuck_st]
        rfl
    rw [hL, hR]

/-! ## Lowering the DNFA to a DFA never fails -/

theorem psFinal_no_bad (nfa : NFA) (hN : NFAInv nfa) :
    ∀ st ∈ (nfa.powerset_construction).states, st.into_dfa ≠ .error () := by
  intro st hst herr
  rcases (NFAState.into_dfa_error_iff st).mp herr with ⟨b, S, hS, hlen⟩
  rcases ((psFinal_core nfa hN).shape st
    (by rw [powerset_states] at hst; exact hst) b S hS).1 with ⟨m, rfl, _⟩
  simp at hlen

theorem powerset_into_dfa_ok (nfa : NFA) (hN : NFAInv nfa) :
    ∃ F, (nfa.powerset_construction).into_dfa = .ok F := by
  cases hres : intoDfaStates (nfa.powerset_construction).states with
  | error e =>
      cases e
      rcases (intoDfaStates_error_iff _).mp hres with ⟨st, hst, herr⟩
      exact absurd herr (psFinal_no_bad nfa hN st hst)
  | ok res =>
      refine ⟨⟨res, (nfa.powerset_construction).states.map NFAState.is_final,
        (nfa.powerset_construction).dict⟩, ?_⟩
      rw [NFA.into_dfa, hres]
      rfl

theorem into_dfa_ok_struct (nfa' : NFA) (F : DFA)
    (hF : nfa'.into_dfa = .ok F) :
    F.states.length = nfa'.states.length ∧
    (∀ i, i < nfa'.states.length →
      (nfa'.states.getD i default).into_dfa =
        .ok (F.states.getD i default)) ∧
    F.finals = nfa'.states.map NFAState.is_final ∧ F.dict = nfa'.dict := by
  rw [NFA.into_dfa] at hF
  cases hres : intoDfaStates nfa'.states with
  | error e =>
      rw [hres] at hF
      cases e
      exact absurd hF (by simp [bind, Except.bind])
  | ok res =>
      rw [hres] at hF
      simp only [bind, Except.bind, pure, Except.pure] at hF
      cases hF
      exact ⟨(intoDfaStates_ok _ _ hres).1, (intoDfaStates_ok _ _ hres).2,
        rfl, rfl⟩

/-! ## DFA run simulation -/

theorem dfa_applyFrom_cons (dfa : DFA) (cur : ℕ) (b : Input)
    (rest : List Input) :
    dfa.applyFrom cur (b :: rest) =
      if (dfa.states.getD cur default).transitions b = AUTO_STUCK
      then (dfa.states.getD cur default).transitions b
      else dfa.applyFrom ((dfa.states.getD cur default).transitions b)
        rest := rfl

theorem ddfa_applyFrom_cons (ddfa : DDFA) (cur : ℕ) (b : Input)
    (rest : List Input) :
    ddfa.applyFrom cur (b :: rest) =
      if (ddfa.states.getD cur default).transitions b = AUTO_STUCK
      then (ddfa.states.getD cur default).transitions b
      else ddfa.applyFrom ((ddfa.states.getD cur default).transitions b)
        rest := rfl

theorem psFinal_trans_none_of_not_alpha (nfa : NFA) (hN : NFAInv nfa)
    (n : ℕ) (hnlt : n < (psFinal nfa).dstates.length) (b : Input)
    (hb : b ∉ nfa.alphabet) :
    ((psFinal nfa).dstates.getD n default).transitions b = none := by
  cases hc : ((psFinal nfa).dstates.getD n default).transitions b with
  | none => rfl
  | some S => exact absurd (psFinal_trans_shape nfa hN n hnlt b S hc).2 hb

theorem nrun_stuck_powerset (nfa : NFA) (hN : NFAInv nfa) (w : List Input) :
    nrun (nfa.powerset_construction) [AUTO_STUCK] w = [] ∨
    nrun (nfa.powerset_construction) [AUTO_STUCK] w = [AUTO_STUCK] := by
  cases w with
  | nil => exact Or.inr rfl
  | cons b rest =>
      rw [nrun_cons, psFinal_stuck_step nfa hN b, nrun_nil_set]
      exact Or.inl rfl

/-- The DFA produced from the DNFA tracks the DNFA's subset run: live to
the same state number, or both dead at the stuck state. -/
theorem dfa_applyFrom_sim (nfa : NFA) (hN : NFAInv nfa) (F : DFA)
    (hF : (nfa.powerset_construction).into_dfa = .ok F) (w : List Input) :
    ∀ k n, (k, n) ∈ (psFinal nfa).smap → n ≠ AUTO_STUCK →
      (∃ k' n', nrun (nfa.powerset_construction) [n] w = [n'] ∧
        n' ≠ AUTO_STUCK ∧ F.applyFrom n w = n' ∧
        (k', n') ∈ (psFinal nfa).smap) ∨
      ((nrun (nfa.powerset_construction) [n] w = [] ∨
        nrun (nfa.powerset_construction) [n] w = [AUTO_STUCK]) ∧
        F.applyFrom n w = AUTO_STUCK) := by
  induction w with
  | nil =>
      intro k n hmem hn1
      exact Or.inl ⟨k, n, rfl, hn1, rfl, hmem⟩
  | cons b rest ih =>
      intro k n hmem hn1
      have hnlt : n < (psFinal nfa).dstates.length :=
        (psFinal_core nfa hN).vals_lt _ hmem
      obtain ⟨hlen, hsts, _, _⟩ := into_dfa_ok_struct _ F hF
      have hrow := NFAState.into_dfa_ok _ _
        (hsts n (by rw [powerset_states]; exact hnlt))
      by_cases hb : b ∈ nfa.alphabet
      · rcases psFinal_installed nfa hN k n hmem hn1 b hb with
          ⟨m, hlookm, htrans⟩
        have hFtrans : (F.states.getD n default).transitions b = m := by
          rw [hrow.2 b, powerset_states, htrans]
          rfl
        have hTstep : nstep (nfa.powerset_construction) [n] b = [m] := by
          rw [nstep_singleton, targets, powerset_states, htrans]
          rfl
        rw [nrun_cons, hTstep, dfa_applyFrom_cons, hFtrans]
        by_cases hm1 : m = AUTO_STUCK
        · right
          rw [if_pos hm1, hm1]
          exact ⟨nrun_stuck_powerset nfa hN rest, rfl⟩
        · rw [if_neg hm1]
          exact ih (nstep nfa k b) m (lookupS_mem _ _ _ hlookm) hm1
      · have hnone := psFinal_trans_none_of_not_alpha nfa hN n hnlt b hb
        have hFtrans : (F.states.getD n default).transitions b =
            AUTO_STUCK := by
          rw [hrow.2 b, powerset_states, hnone]
        have hTstep : nstep (nfa.powerset_construction) [n] b = [] := by
          rw [nstep_singleton, targets, powerset_states, hnone]
          rfl
        right
        rw [nrun_cons, hTstep, nrun_nil_set, dfa_applyFrom_cons, hFtrans,
          if_pos rfl]
        exact ⟨Or.inl rfl, rfl⟩

/-- The DFA lowered from the powerset construction returns exactly the same
list of pattern numbers as the DNFA on every input. -/
theorem dfa_dnfa_apply_eq (nfa : NFA) (hN : NFAInv nfa) (F : DFA)
    (hF : (nfa.powerset_construction).into_dfa = .ok F) (w : List Input) :
    F.apply w = (nfa.powerset_construction).apply w := by
  obtain ⟨hlen, hsts, _, _⟩ := into_dfa_ok_struct _ F hF
  have hstart : ([AUTO_START], AUTO_START) ∈ (psFinal nfa).smap :=
    lookupS_mem _ _ _ (psFinal_core nfa hN).seed_start
  have h01 : AUTO_START ≠ AUTO_STUCK := by simp [AUTO_START, AUTO_STUCK]
  rcases dfa_applyFrom_sim nfa hN F hF w [AUTO_START] AUTO_START hstart h01
    with ⟨k', n', hT, hn1, hc, hmem'⟩ | ⟨hT, hc⟩
  · rw [DFA.apply, NFA.apply, hc, hT]
    simp only [List.flatMap_cons, List.flatMap_nil, List.append_nil]
    have hnlt : n' < (psFinal nfa).dstates.length :=
      (psFinal_core nfa hN).vals_lt _ hmem'
    exact (NFAState.into_dfa_ok _ _
      (hsts n' (by rw [powerset_states]; exact hnlt))).1
  · rw [DFA.apply, NFA.apply, hc]
    have h1lt : AUTO_STUCK < (psFinal nfa).dstates.length := by
      have h2 := (psFinal_core nfa hN).two_le
      simp only [AUTO_STUCK]
      omega
    have hrow := NFAState.into_dfa_ok _ _
      (hsts AUTO_STUCK (by rw [powerset_states]; exact h1lt))
    rw [hrow.1, powerset_states, (psFinal_core nfa hN).stuck_st]
    rcases hT with h | h <;> rw [h]
    · rfl
    · simp only [List.flatMap_cons, List.flatMap_nil, List.append_nil]
      rw [(psFinal_core nfa hN).stuck_st]

/-! ## Lowering the DFA to a DDFA never fails -/

theorem dfa_trans_lt (nfa : NFA) (hN : NFAInv nfa) (F : DFA)
    (hF : (nfa.powerset_construction).into_dfa = .ok F) :
    ∀ st ∈ F.states, ∀ b, st.transitions b < F.states.length := by
  obtain ⟨hlen, hsts, _, _⟩ := into_dfa_ok_struct _ F hF
  intro st hst b
  rcases List.getElem_of_mem hst with ⟨i, hi, rfl⟩
  have hilt : i < (nfa.powerset_construction).states.length := by
    rw [← hlen]
    exact hi
  have hrow := NFAState.into_dfa_ok _ _ (hsts i hilt)
  rw [← List.getD_eq_getElem F.states default hi, hrow.2 b]
  have h2 := (psFinal_core nfa hN).two_le
  cases hc : ((nfa.powerset_construction).states.getD i
      default).transitions b with
  | none =>
      rw [hlen, powerset_states]
      simp only [AUTO_STUCK]
      omega
  | some S =>
      rcases (psFinal_trans_shape nfa hN i
        (by rw [← powerset_states]; exact hilt) b S
        (by rw [powerset_states] at hc; exact hc)).1 with ⟨m, rfl, hmlt⟩
      rw [hlen, powerset_states]
      simpa using hmlt

theorem into_ddfa_ok_of_lt (dfa : DFA)
    (h : ∀ st ∈ dfa.states, ∀ b, st.transitions b < dfa.states.length) :
    ∃ G, dfa.into_ddfa = .ok G ∧
      G.states.length = dfa.states.length ∧
      (∀ i, i < dfa.states.length → G.states.getD i default =
        ⟨(dfa.states.getD i default).transitions,
         (dfa.states.getD i default).pattern_ends,
         dfa.finals.getD i false⟩) ∧
      G.dict = dfa.dict := by
  have hcond : dfa.states.any (fun st => allBytes.any
      (fun b => dfa.states.length ≤ st.transitions b)) = false := by
    rw [List.any_eq_false]
    intro st hst
    rw [Bool.not_eq_true, List.any_eq_false]
    intro b _
    simp only [Bool.not_eq_true, decide_eq_false_iff_not, Nat.not_le]
    exact h st hst b
  refine ⟨⟨dfa.states.enum.map (fun p => ⟨p.2.transitions, p.2.pattern_ends,
    dfa.finals.getD p.1 false⟩), dfa.dict⟩, ?_, ?_, ?_, rfl⟩
  · rw [DFA.into_ddfa, if_neg (by simp [hcond])]
  · simp
  · intro i hi
    have hlen : i < (dfa.states.enum.map
        (fun p => (⟨p.2.transitions, p.2.pattern_ends,
          dfa.finals.getD p.1 false⟩ : DDFAState))).length := by
      simpa using hi
    rw [List.getD_eq_getElem _ _ hlen]
    simp only [List.getElem_map, List.getElem_enum]
    rw [List.getD_eq_getElem dfa.states default hi]

/-! ## DDFA runs equal DFA runs -/

theorem ddfa_applyFrom_eq (dfa : DFA) (G : DDFA)
    (hGst : ∀ i, i < dfa.states.length → G.states.getD i default =
      ⟨(dfa.states.getD i default).transitions,
       (dfa.states.getD i default).pattern_ends, dfa.finals.getD i false⟩)
    (hlt : ∀ st ∈ dfa.states, ∀ b, st.transitions b < dfa.states.length)
    (w : List Input) :
    ∀ cur, cur < dfa.states.length →
      G.applyFrom cur w = dfa.applyFrom cur w ∧
      dfa.applyFrom cur w < dfa.states.length := by
  induction w with
  | nil => exact fun cur hcur => ⟨rfl, hcur⟩
  | cons b rest ih =>
      intro cur hcur
      have htr : (G.states.getD cur default).transitions b =
          (dfa.states.getD cur default).transitions b := by
        rw [hGst cur hcur]
      have hnext : (dfa.states.getD cur default).transitions b <
          dfa.states.length := by
        refine hlt (dfa.states.getD cur default) ?_ b
        rw [List.getD_eq_getElem _ _ hcur]
        exact List.getElem_mem hcur
      rw [ddfa_applyFrom_cons, dfa_applyFrom_cons, htr]
      by_cases hstuck : (dfa.states.getD cur default).transitions b =
          AUTO_STUCK
      · rw [if_pos hstuck, if_pos hstuck]
        exact ⟨rfl, hnext⟩
      · rw [if_neg hstuck, if_neg hstuck]
        exact ih _ hnext

theorem ddfa_dfa_apply_eq (dfa : DFA) (G : DDFA)
    (hGst : ∀ i, i < dfa.states.length → G.states.getD i default =
      ⟨(dfa.states.getD i default).transitions,
       (dfa.states.getD i default).pattern_ends, dfa.finals.getD i false⟩)
    (hlt : ∀ st ∈ dfa.states, ∀ b, st.transitions b < dfa.states.length)
    (h0 : AUTO_START < dfa.states.length) (w : List Input) :
    G.apply w = dfa.apply w := by
  obtain ⟨heq, hfin⟩ := ddfa_applyFrom_eq dfa G hGst hlt w AUTO_START h0
  rw [DDFA.apply, DFA.apply, heq, hGst _ hfin]

/-! ## Claim C7: the powerset construction is deterministic -/

/-- C7: every state of the automaton `powerset_construction` produces has at
most one target per byte — every stored transition set is a singleton — so
the subsequent `into_dfa` lowering never returns the `NonDeterministic`
error. (`NFAInv` holds of every automaton `from_dictionary` builds.) -/
theorem powerset_deterministic (nfa : NFA) (hN : NFAInv nfa) :
    (∀ st ∈ (nfa.powerset_construction).states, ∀ b S,
      st.transitions b = some S → S.length = 1) ∧
    ∃ F, (nfa.powerset_construction).into_dfa = .ok F := by
  constructor
  · intro st hst b S hS
    rcases ((psFinal_core nfa hN).shape st
      (by rw [powerset_states] at hst; exact hst) b S hS).1 with ⟨m, rfl, _⟩
    rfl
  · exact powerset_into_dfa_ok nfa hN

theorem powerset_deterministic_witness :
    NFAInv nfaSingleA ∧
    ((∀ st ∈ (nfaSingleA.powerset_construction).states, ∀ b S,
      st.transitions b = some S → S.length = 1) ∧
    ∃ F, (nfaSingleA.powerset_construction).into_dfa = .ok F) :=
  ⟨(from_dictionary_inv [[bytA]]).1,
   powerset_deterministic nfaSingleA (from_dictionary_inv [[bytA]]).1⟩

/-! ## Claim C3: all four automata report the same multiset -/

/-- C3: for every dictionary and every input, the DNFA obtained by the
powerset construction, the DFA obtained by `into_dfa` and the DDFA obtained
by `into_ddfa` (both lowerings succeed) report exactly the same multiset of
pattern numbers as the baseline NFA's `apply`. -/
theorem lowering_equivalence (dict : List (List Input)) (w : List Input) :
    ∃ F G,
      ((NFA.from_dictionary dict).powerset_construction).into_dfa =
        .ok F ∧
      F.into_ddfa = .ok G ∧
      (((NFA.from_dictionary dict).apply w : List ℕ) : Multiset ℕ) =
        (((NFA.from_dictionary dict).powerset_construction.apply w :
          List ℕ) : Multiset ℕ) ∧
      (((NFA.from_dictionary dict).apply w : List ℕ) : Multiset ℕ) =
        ((F.apply w : List ℕ) : Multiset ℕ) ∧
      (((NFA.from_dictionary dict).apply w : List ℕ) : Multiset ℕ) =
        ((G.apply w : List ℕ) : Multiset ℕ) := by
  have hN := (from_dictionary_inv dict).1
  obtain ⟨F, hF⟩ := powerset_into_dfa_ok _ hN
  have hlt := dfa_trans_lt _ hN F hF
  obtain ⟨G, hG, hGlen, hGst, _⟩ := into_ddfa_ok_of_lt F hlt
  have h0 : AUTO_START < F.states.length := by
    obtain ⟨hlen, _, _, _⟩ := into_dfa_ok_struct _ F hF
    have h2 := (psFinal_core _ hN).two_le
    rw [hlen, powerset_states]
    simp only [AUTO_START]
    omega
  have hperm := nfa_dnfa_apply_perm _ hN w
  have hdfa := dfa_dnfa_apply_eq _ hN F hF w
  have hddfa := ddfa_dfa_apply_eq F G hGst hlt h0 w
  refine ⟨F, G, hF, hG, Multiset.coe_eq_coe.mpr hperm, ?_, ?_⟩
  · rw [hdfa]
    exact Multiset.coe_eq_coe.mpr hperm
  · rw [hddfa, hdfa]
    exact Multiset.coe_eq_coe.mpr hperm

/-! ## Claim C4: every dictionary pattern matches itself at every stage -/

/-- C4: for every pattern of the dictionary with index `i`, applying the
automaton built by `from_dictionary` to the pattern itself yields a result
containing `i` — for the baseline NFA, its powerset construction, and the
DFA and DDFA lowerings. -/
theorem self_match_all_lowerings (dict : List (List Input)) (i : ℕ)
    (hi : i < dict.length) :
    i ∈ (NFA.from_dictionary dict).apply (dict.getD i []) ∧
    i ∈ ((NFA.from_dictionary dict).powerset_construction).apply
      (dict.getD i []) ∧
    ∃ F G,
      ((NFA.from_dictionary dict).powerset_construction).into_dfa =
        .ok F ∧
      F.into_ddfa = .ok G ∧
      i ∈ F.apply (dict.getD i []) ∧ i ∈ G.apply (dict.getD i []) := by
  have hN := (from_dictionary_inv dict).1
  have hnfa := from_dictionary_self_apply dict i hi
  have hperm := nfa_dnfa_apply_perm _ hN (dict.getD i [])
  have hdnfa := hperm.mem_iff.mp hnfa
  obtain ⟨F, hF⟩ := powerset_into_dfa_ok _ hN
  have hlt := dfa_trans_lt _ hN F hF
  obtain ⟨G, hG, hGlen, hGst, _⟩ := into_ddfa_ok_of_lt F hlt
  have h0 : AUTO_START < F.states.length := by
    obtain ⟨hlen, _, _, _⟩ := into_dfa_ok_struct _ F hF
    have h2 := (psFinal_core _ hN).two_le
    rw [hlen, powerset_states]
    simp only [AUTO_START]
    omega
  have hdfa := dfa_dnfa_apply_eq _ hN F hF (dict.getD i [])
  have hddfa := ddfa_dfa_apply_eq F G hGst hlt h0 (dict.getD i [])
  refine ⟨hnfa, hdnfa, F, G, hF, hG, ?_, ?_⟩
  · rw [hdfa]
    exact hdnfa
  · rw [hddfa, hdfa]
    exact hdnfa

theorem self_match_all_lowerings_witness :
    0 < ([[bytA]] : List (List Input)).length ∧
    (0 ∈ (NFA.from_dictionary [[bytA]]).apply
        (([[bytA]] : List (List Input)).getD 0 []) ∧
    0 ∈ ((NFA.from_dictionary [[bytA]]).powerset_construction).apply
        (([[bytA]] : List (List Input)).getD 0 []) ∧
    ∃ F G,
      ((NFA.from_dictionary [[bytA]]).powerset_construction).into_dfa =
        .ok F ∧
      F.into_ddfa = .ok G ∧
      0 ∈ F.apply (([[bytA]] : List (List Input)).getD 0 []) ∧
      0 ∈ G.apply (([[bytA]] : List (List Input)).getD 0 [])) :=
  ⟨by decide, self_match_all_lowerings [[bytA]] 0 (by decide)⟩

end Dnfa
